import Mathlib

/-!
# pg_shard: COPY on a distributed table (src/pg_copy.c)

A shallow embedding of `PgShardCopy` and `ConstructCopyStatement`.

The function talks to the outside through calls into PostgreSQL, libpq, the
shard metadata and the transaction manager `tmgr`.  None of these is part of
the file, so they are collected in a `World`: what the metadata functions
return, which rows `NextCopyFrom` delivers, and for every call that can fail
whether it succeeds.  A run of `PgShardCopy` is the list of calls it makes, in
order, together with the way it ends (a return value or a raised error).
-/

namespace PgShard

/-! ## Data model -/

/-- A PostgreSQL `Datum`. -/
abbrev Datum := Nat

/-- The `RangeVar` of the statement: schema and relation name. -/
structure RangeVar where
  schemaname : Option String
  relname : String
  deriving DecidableEq, Repr

/-- A `DefElem` of the option list; `arg` is what `defGetString` returns for it. -/
structure DefElem where
  defname : String
  arg : String
  deriving DecidableEq, Repr

/-- The fields of `CopyStmt` that `PgShardCopy` reads.  A `List` that is `NIL`
in C is the empty list. -/
structure CopyStmt where
  relation : Option RangeVar
  attlist : List String
  is_from : Bool
  options : List DefElem
  deriving DecidableEq, Repr

/-- A shard of the table: its id (an `int64`) and the range of partition
values it owns. -/
structure ShardInterval where
  id : Int
  minValue : Datum
  maxValue : Datum
  deriving DecidableEq, Repr

/-- One placement (replica) of a shard. -/
structure ShardPlacement where
  nodeName : String
  nodePort : Int
  deriving DecidableEq, Repr

/-- A `PGconn*` handle.  `PgShardCopy` calls `ConnectToNode` once for every
placement of every shard it registers; the handle is named after the shard and
the index of the placement it was opened for. -/
structure PGconn where
  shardId : Int
  replica : Nat
  deriving DecidableEq, Repr

/-- The entry of the `shardToConn` hash table (`typedef struct ... CopyConnection`).
The arrays `prepared` and `conn` are allocated with `palloc0`, so they start as
all `false` and all `NULL` (`none`). -/
structure CopyConnection where
  shardId : Int
  nReplicas : Nat
  prepared : List Bool
  conn : List (Option PGconn)
  deriving DecidableEq, Repr

/-- One row as `NextCopyFrom` delivers it: the arrays `columnValues` and
`columnNulls` (entry `k` belongs to attribute number `k + 1`) and the text of
the input line left in `line_buf`, without its line terminator. -/
structure CopyRow where
  columnValues : List Datum
  columnNulls : List Bool
  line : String
  deriving DecidableEq, Repr

/-- The calls `PgShardCopy` makes to its collaborators.  A connection argument
is an `Option`: the `conn` array of a hash entry holds `NULL` for a placement
that was never connected. -/
inductive Call where
  | DoCopy (query : String)
  | LockShardDistributionMetadata (shardId : Int)
  | LockShardData (shardId : Int)
  | LoadFinalizedShardPlacementList (shardId : Int)
  | ConnectToNode (nodeName : String) (nodePort : Int) (handle : PGconn)
  | Begin (conn : Option PGconn)
  | PgShardExecute (conn : Option PGconn) (command : String)
  | PQputCopyData (conn : Option PGconn) (buffer : String)
  | PQputCopyEnd (conn : Option PGconn) (errormsg : Option String)
  | Prepare (conn : Option PGconn) (relationName : String) (shardId : Int)
  | CommitPrepared (conn : Option PGconn) (relationName : String) (shardId : Int)
  | RollbackPrepared (conn : Option PGconn) (relationName : String) (shardId : Int)
  | Rollback (conn : Option PGconn)
  | PQfinish (conn : Option PGconn)
  deriving DecidableEq, Repr

/-- The errors `PgShardCopy` raises with `ereport(ERROR, ...)` or
`elog(ERROR, ...)`. -/
inductive CopyError where
  /-- "could not find any shards for query" -/
  | noShards (relationName : String)
  /-- "Copy in binary mode is not currently supported" -/
  | binaryMode
  /-- "cannot copy row with NULL value in partition column" -/
  | nullPartitionColumn
  /-- "Failed to start copy on node %s:%s" -/
  | startCopyFailed (nodeName : String) (nodePort : Int)
  /-- "Failed to connect to node %s:%s" -/
  | connectFailed (nodeName : String) (nodePort : Int)
  /-- "COPY failed for shard %ld" -/
  | copyFailedForShard (shardId : Int)
  deriving DecidableEq, Repr

/-- How a call of `PgShardCopy` ends. -/
inductive Outcome where
  | returned (value : Bool)
  | raised (error : CopyError)
  deriving DecidableEq, Repr

/-- A run: the calls made, in order, and the outcome. -/
structure Run where
  trace : List Call
  outcome : Outcome
  deriving DecidableEq, Repr

/-- Everything outside `pg_copy.c` that a call of `PgShardCopy` depends on. -/
structure World where
  /-- `IsDistributedTable(tableId)` -/
  IsDistributedTable : Bool
  /-- `get_rel_name(tableId)` -/
  get_rel_name : String
  /-- `LookupShardIntervalList(tableId)` -/
  LookupShardIntervalList : List ShardInterval
  /-- `PartitionColumn(tableId)->varattno`, an attribute number counted from 1 -/
  varattno : Nat
  /-- `copyState->binary` after `BeginCopyFrom` -/
  binary : Bool
  /-- the rows `NextCopyFrom` delivers before it reports the end of the data;
  an input that `NextCopyFrom` itself rejects is not modelled -/
  rows : List CopyRow
  /-- `PruneShardList(tableId, whereClauseList, shardIntervalList)` as a
  function of the constant of the equality predicate and the interval list -/
  PruneShardList : Datum → List ShardInterval → List ShardInterval
  /-- `LoadFinalizedShardPlacementList(shardId)` -/
  LoadFinalizedShardPlacementList : Int → List ShardPlacement
  /-- whether a call succeeds: `ConnectToNode` returns a connection, a `tmgr`
  function or `PgShardExecute` returns true, a libpq function reports success -/
  succeeds : Call → Bool
  /-- the order in which `hash_seq_search` yields the entries of the table -/
  hash_seq : List CopyConnection → List CopyConnection
  /-- `quote_qualified_identifier(schemaname, relname)` -/
  quote_qualified_identifier : Option String → String → String
  /-- what a read of `columnNulls` past the end of the array yields -/
  beyondNulls : Bool
  /-- what a read of `columnValues` past the end of the array yields -/
  beyondValues : Datum

/-! ## ConstructCopyStatement -/

/-- The first `foreach` of `ConstructCopyStatement`: every column name preceded
by the separator, which is an opening parenthesis for the first and a comma
afterwards. -/
def appendColumns : List String → Char → String → String
  | [], _, buf => buf
  | name :: rest, sep, buf => appendColumns rest ',' ((buf.push sep) ++ name)

/-- The second `foreach` of `ConstructCopyStatement`.  The format is
`"%d%s %s"`, so the separator is printed with `%d`, as a decimal number. -/
def appendOptions : List DefElem → Char → String → String
  | [], _, buf => buf
  | d :: rest, sep, buf =>
    appendOptions rest ',' (buf ++ toString sep.toNat ++ d.defname ++ " " ++ d.arg)

/-- `ConstructCopyStatement(copyStatement, shardId)`. -/
def ConstructCopyStatement (w : World) (relation : RangeVar) (copyStatement : CopyStmt)
    (shardId : Int) : String :=
  let qualifiedName := w.quote_qualified_identifier relation.schemaname relation.relname
  let buf := "COPY " ++ qualifiedName ++ "_" ++ toString shardId ++ " "
  let buf := if copyStatement.attlist ≠ [] then
      (appendColumns copyStatement.attlist '(' buf).push ')'
    else buf
  let buf := buf ++ "FROM STDIN"
  if copyStatement.options ≠ [] then
    (appendOptions copyStatement.options '(' (buf ++ " WITH ")).push ')'
  else buf

/-! ## The streaming loop -/

/-- `hash_search(shardToConn, &shardInterval->id, HASH_ENTER, &found)`: the
entry registered under the key, if there is one. -/
def hash_search (shardToConn : List CopyConnection) (key : Int) : Option CopyConnection :=
  shardToConn.find? (fun e => e.shardId == key)

/-- Modelled from the spec: `SortList` and `CompareTasksByShardId` are declared
outside `pg_copy.c`; the spec has the shards of a row visited in ascending
order of shard id.  `SortList(PruneShardList(...), CompareTasksByShardId)` is
the pruned list in that order. -/
def SortList (l : List ShardInterval) : List ShardInterval :=
  l.insertionSort (fun a b => a.id ≤ b.id)

/-- The `foreach(taskPlacementCell, finalizedPlacementList)` loop for a shard
that is new in the table.  `nPlacements` is the index of the next slot of the
`conn` array.  The result is the array, the calls made and the error raised, if
any. -/
def connectPlacements (w : World) (copy : String) (shardId : Int) :
    List ShardPlacement → Nat → List (Option PGconn) →
    List (Option PGconn) × List Call × Option CopyError
  | [], _, conn => (conn, [], none)
  | taskPlacement :: rest, nPlacements, conn =>
    let handle : PGconn := ⟨shardId, nPlacements⟩
    let connect := Call.ConnectToNode taskPlacement.nodeName taskPlacement.nodePort handle
    if w.succeeds connect then
      let conn := conn.set nPlacements (some handle)
      if w.succeeds (Call.Begin (some handle)) then
        if w.succeeds (Call.PgShardExecute (some handle) copy) then
          let (conn, calls, err) := connectPlacements w copy shardId rest (nPlacements + 1) conn
          (conn, connect :: Call.Begin (some handle) ::
            Call.PgShardExecute (some handle) copy :: calls, err)
        else
          (conn, [connect, Call.Begin (some handle), Call.PgShardExecute (some handle) copy],
            some (CopyError.startCopyFailed taskPlacement.nodeName taskPlacement.nodePort))
      else
        (conn, [connect, Call.Begin (some handle)],
          some (CopyError.startCopyFailed taskPlacement.nodeName taskPlacement.nodePort))
    else
      (conn, [connect],
        some (CopyError.connectFailed taskPlacement.nodeName taskPlacement.nodePort))

/-- The `hash_search` call of the row loop with its `if (!found)` branch: the
entry for the shard, the table afterwards, the calls made and the error raised,
if any.  A new entry is in the table from the moment `hash_search` returns, so
it is there too when connecting one of its placements fails. -/
def getCopyConnection (w : World) (relation : RangeVar) (copyStatement : CopyStmt)
    (shardId : Int) (shardToConn : List CopyConnection) :
    CopyConnection × List CopyConnection × List Call × Option CopyError :=
  match hash_search shardToConn shardId with
  | some copyConn => (copyConn, shardToConn, [], none)
  | none =>
    let finalizedPlacementList := w.LoadFinalizedShardPlacementList shardId
    let nPlacements := finalizedPlacementList.length
    let (conn, calls, err) :=
      connectPlacements w (ConstructCopyStatement w relation copyStatement shardId) shardId
        finalizedPlacementList 0 (List.replicate nPlacements none)
    let copyConn : CopyConnection :=
      { shardId := shardId, nReplicas := nPlacements,
        prepared := List.replicate nPlacements false, conn := conn }
    (copyConn, shardToConn ++ [copyConn],
      Call.LockShardDistributionMetadata shardId :: Call.LockShardData shardId ::
        Call.LoadFinalizedShardPlacementList shardId :: calls, err)

/-- The loop "Replicate row to all shards": one `PQputCopyData` for every
replica connection of the entry.  The value `PQputCopyData` returns is not
looked at. -/
def replicateRow (copyConn : CopyConnection) (lineBuf : String) : List Call :=
  (List.range copyConn.nReplicas).map
    (fun i => Call.PQputCopyData (copyConn.conn.getD i none) lineBuf)

/-- The `foreach(shardIntervalCell, prunedList)` loop for one row.  `lineBuf`
is the content of the line buffer; every pass of the loop appends a newline to
it before the row is replicated. -/
def copyToShards (w : World) (relation : RangeVar) (copyStatement : CopyStmt) :
    List ShardInterval → String → List CopyConnection →
    List CopyConnection × List Call × Option CopyError
  | [], _, shardToConn => (shardToConn, [], none)
  | shardInterval :: rest, lineBuf, shardToConn =>
    match getCopyConnection w relation copyStatement shardInterval.id shardToConn with
    | (_, shardToConn, calls, some err) => (shardToConn, calls, some err)
    | (copyConn, shardToConn, calls, none) =>
      let lineBuf := lineBuf.push (Char.ofNat 10)
      let (shardToConn, later, err) :=
        copyToShards w relation copyStatement rest lineBuf shardToConn
      (shardToConn, calls ++ replicateRow copyConn lineBuf ++ later, err)

/-- The list of shards a row is sent to: the arrays are read at index
`partitionColumn->varattno` and the value found there is the constant of the
predicate handed to `PruneShardList`. -/
def prunedList (w : World) (row : CopyRow) : List ShardInterval :=
  SortList (w.PruneShardList (row.columnValues.getD w.varattno w.beyondValues)
    w.LookupShardIntervalList)

/-- The `while (nextRowFound)` loop over the rows `NextCopyFrom` delivers. -/
def copyRows (w : World) (relation : RangeVar) (copyStatement : CopyStmt) :
    List CopyRow → List CopyConnection →
    List CopyConnection × List Call × Option CopyError
  | [], shardToConn => (shardToConn, [], none)
  | row :: rest, shardToConn =>
    if row.columnNulls.getD w.varattno w.beyondNulls then
      (shardToConn, [], some CopyError.nullPartitionColumn)
    else
      match copyToShards w relation copyStatement (prunedList w row) row.line shardToConn with
      | (shardToConn, calls, some err) => (shardToConn, calls, some err)
      | (shardToConn, calls, none) =>
        let (shardToConn, later, err) := copyRows w relation copyStatement rest shardToConn
        (shardToConn, calls ++ later, err)

/-! ## Two phase commit -/

/-- The inner `for` loop of "Perform two phase commit in replicas" over the
indices still to visit: the `prepared` array, the value of `failedShard` and the
calls made.  A refused `Prepare` records the shard and breaks out of the loop. -/
def prepareReplicas (w : World) (relationName : String) (copyConn : CopyConnection) :
    List Nat → List Bool → Int → List Bool × Int × List Call
  | [], prepared, failedShard => (prepared, failedShard, [])
  | i :: rest, prepared, failedShard =>
    let conn := copyConn.conn.getD i none
    let prepare := Call.Prepare conn relationName copyConn.shardId
    if w.succeeds prepare then
      let (prepared, failedShard, calls) :=
        prepareReplicas w relationName copyConn rest (prepared.set i true) failedShard
      (prepared, failedShard, Call.PQputCopyEnd conn none :: prepare :: calls)
    else
      (prepared, copyConn.shardId, [Call.PQputCopyEnd conn none, prepare])

/-- The loop `while (failedShard < 0 && (copyConn = hash_seq_search(...)) != NULL)`
over the entries in the order of the scan: the entries afterwards, the value of
`failedShard` and the calls made. -/
def prepareShards (w : World) (relationName : String) :
    List CopyConnection → Int → List CopyConnection × Int × List Call
  | [], failedShard => ([], failedShard, [])
  | copyConn :: rest, failedShard =>
    if failedShard < 0 then
      let (prepared, failedShard, calls) :=
        prepareReplicas w relationName copyConn (List.range copyConn.nReplicas)
          copyConn.prepared failedShard
      let (rest, failedShard, later) := prepareShards w relationName rest failedShard
      ({ copyConn with prepared := prepared } :: rest, failedShard, calls ++ later)
    else
      (copyConn :: rest, failedShard, [])

/-- The body of the recovery loop in `PG_CATCH` for replica `i` of an entry. -/
def rollbackReplica (relationName : String) (copyConn : CopyConnection) (i : Nat) : List Call :=
  let conn := copyConn.conn.getD i none
  if copyConn.prepared.getD i false then
    [Call.RollbackPrepared conn relationName copyConn.shardId, Call.PQfinish conn]
  else
    [Call.PQputCopyEnd conn (some "Aborted because of failure on some shard"),
      Call.Rollback conn, Call.PQfinish conn]

/-- The loop "Rollback transactions" of the `PG_CATCH` block. -/
def rollbackTransactions (relationName : String) (scan : List CopyConnection) : List Call :=
  scan.flatMap (fun copyConn =>
    (List.range copyConn.nReplicas).flatMap (rollbackReplica relationName copyConn))

/-- The body of the loop "Complete two phase commit" for replica `i` of an
entry. -/
def completeReplica (relationName : String) (copyConn : CopyConnection) (i : Nat) : List Call :=
  let conn := copyConn.conn.getD i none
  if copyConn.prepared.getD i false then
    [Call.CommitPrepared conn relationName copyConn.shardId, Call.PQfinish conn]
  else
    [Call.PQputCopyEnd conn (some "Aborted because of failure on some shard"),
      Call.Rollback conn, Call.PQfinish conn]

/-- The loop "Complete two phase commit" after `PG_END_TRY`. -/
def completeTwoPhaseCommit (relationName : String) (scan : List CopyConnection) : List Call :=
  scan.flatMap (fun copyConn =>
    (List.range copyConn.nReplicas).flatMap (completeReplica relationName copyConn))

/-! ## PgShardCopy -/

/-- The part of `PgShardCopy` from `PG_TRY` to the end, for COPY FROM on a
distributed table. -/
def copyFrom (w : World) (relation : RangeVar) (copyStatement : CopyStmt) : Run :=
  let relationName := w.get_rel_name
  match copyRows w relation copyStatement w.rows [] with
  | (shardToConn, calls, some err) =>
    { trace := calls ++ rollbackTransactions relationName (w.hash_seq shardToConn),
      outcome := Outcome.raised err }
  | (shardToConn, calls, none) =>
    let (scan, failedShard, prepares) :=
      prepareShards w relationName (w.hash_seq shardToConn) (-1)
    let trace := calls ++ prepares ++ completeTwoPhaseCommit relationName scan
    if failedShard ≥ 0 then
      { trace := trace, outcome := Outcome.raised (CopyError.copyFailedForShard failedShard) }
    else
      { trace := trace, outcome := Outcome.returned true }

/-- `PgShardCopy(copyStatement, query)`. -/
def PgShardCopy (w : World) (copyStatement : CopyStmt) : Run :=
  match copyStatement.relation with
  | none => { trace := [], outcome := Outcome.returned false }
  | some relation =>
    if w.IsDistributedTable then
      if w.LookupShardIntervalList = [] then
        { trace := [], outcome := Outcome.raised (CopyError.noShards w.get_rel_name) }
      else if !copyStatement.is_from then
        { trace := [Call.DoCopy ("select * from " ++
            w.quote_qualified_identifier relation.schemaname relation.relname)],
          outcome := Outcome.returned true }
      else if w.binary then
        { trace := [], outcome := Outcome.raised CopyError.binaryMode }
      else
        copyFrom w relation copyStatement
    else
      { trace := [], outcome := Outcome.returned false }

/-! ## Classifying calls -/

/-- The call is a `ConnectToNode`. -/
def Call.isConnect : Call → Bool
  | Call.ConnectToNode _ _ _ => true
  | _ => false

/-- The call is a `tmgr->Prepare`. -/
def Call.isPrepare : Call → Bool
  | Call.Prepare _ _ _ => true
  | _ => false

/-- The call is a `tmgr->CommitPrepared`. -/
def Call.isCommitPrepared : Call → Bool
  | Call.CommitPrepared _ _ _ => true
  | _ => false

/-- The call is a `tmgr->Rollback` or a `tmgr->RollbackPrepared`. -/
def Call.isRollback : Call → Bool
  | Call.Rollback _ => true
  | Call.RollbackPrepared _ _ _ => true
  | _ => false

/-- The call is a `PQputCopyData`. -/
def Call.isPutCopyData : Call → Bool
  | Call.PQputCopyData _ _ => true
  | _ => false

/-- The shard ids the rows are routed to, in the order the row loop meets
them. -/
def routedShards (w : World) : List Int :=
  w.rows.flatMap (fun row => (prunedList w row).map (fun s => s.id))

/-- An outcome table in which `PQputCopyData` reports `put conn buffer` and
every other call does what it does in `succeeds`. -/
def withPutCopyData (succeeds : Call → Bool) (put : Option PGconn → String → Bool) :
    Call → Bool
  | Call.PQputCopyData conn buffer => put conn buffer
  | c => succeeds c

/-- A call the row loop can make. -/
def Call.inRowLoop : Call → Bool
  | Call.LockShardDistributionMetadata _ => true
  | Call.LockShardData _ => true
  | Call.LoadFinalizedShardPlacementList _ => true
  | Call.ConnectToNode _ _ _ => true
  | Call.Begin _ => true
  | Call.PgShardExecute _ _ => true
  | Call.PQputCopyData _ _ => true
  | _ => false

/-- A call the prepare loop can make. -/
def Call.inPrepareLoop : Call → Bool
  | Call.PQputCopyEnd _ none => true
  | Call.Prepare _ _ _ => true
  | _ => false

/-- A call the loop "Complete two phase commit" can make. -/
def Call.inCompletion : Call → Bool
  | Call.CommitPrepared _ _ _ => true
  | Call.PQputCopyEnd _ (some _) => true
  | Call.Rollback _ => true
  | Call.PQfinish _ => true
  | _ => false

/-- A call the recovery loop of `PG_CATCH` can make. -/
def Call.inRecovery : Call → Bool
  | Call.RollbackPrepared _ _ _ => true
  | Call.PQputCopyEnd _ (some _) => true
  | Call.Rollback _ => true
  | Call.PQfinish _ => true
  | _ => false

/-- The `Prepare` calls of a trace, in order. -/
def prepareCalls (trace : List Call) : List Call := trace.filter Call.isPrepare

/-- The first `Prepare` call of a trace that is refused. -/
def firstRefusedPrepare (w : World) (trace : List Call) : Option Call :=
  (prepareCalls trace).find? (fun c => !w.succeeds c)

/-- The world in which `PQputCopyData` reports `put conn buffer` and nothing else
is changed. -/
def World.withPut (w : World) (put : Option PGconn → String → Bool) : World :=
  { w with succeeds := withPutCopyData w.succeeds put }

/-- The keys of the hash table: the shard ids that have an entry. -/
def shardKeys (tab : List CopyConnection) : List Int := tab.map (fun e => e.shardId)

/-- The number of placements of a shard. -/
def replicaCount (w : World) (shardId : Int) : Nat :=
  (w.LoadFinalizedShardPlacementList shardId).length

/-- The number of `ConnectToNode` calls of a trace. -/
def connectCount (trace : List Call) : Nat := trace.countP Call.isConnect

/-- The sum of the replica counts of a list of shard ids. -/
def sumReplicas (w : World) (keys : List Int) : Nat := (keys.map (replicaCount w)).sum

/-- An error the row loop can raise. -/
def CopyError.inRowLoop : CopyError → Bool
  | CopyError.nullPartitionColumn => true
  | CopyError.startCopyFailed _ _ => true
  | CopyError.connectFailed _ _ => true
  | _ => false

/-- The row loop of the run ended without an error: the run returned true or
failed in the prepare phase. -/
def Outcome.pastRowLoop : Outcome → Bool
  | Outcome.returned true => true
  | Outcome.raised (CopyError.copyFailedForShard _) => true
  | _ => false

/-- The `conn` array of an entry all of whose placements are connected. -/
def handles (shardId : Int) (n : Nat) : List (Option PGconn) :=
  (List.range n).map (fun i => some (PGconn.mk shardId i))

/-- An entry as the row loop leaves it when it has connected every placement:
no replica is prepared and slot `i` of `conn` holds the handle opened for
placement `i`. -/
def CopyConnection.fresh (e : CopyConnection) : Prop :=
  e.prepared = List.replicate e.nReplicas false ∧ e.conn = handles e.shardId e.nReplicas

/-- The table has an entry with a slot for the handle. -/
def owns (tab : List CopyConnection) (h : PGconn) : Prop :=
  ∃ e ∈ tab, e.shardId = h.shardId ∧ h.replica < e.nReplicas

/-- Every replica of the entry is marked as prepared. -/
def CopyConnection.allPrepared (e : CopyConnection) : Prop :=
  ∀ i, i < e.nReplicas → e.prepared.getD i false = true

/-- No replica of the entry is marked as prepared. -/
def CopyConnection.unprepared (e : CopyConnection) : Prop :=
  ∀ i, e.prepared.getD i false = false

/-- The table holds the handle: some entry of its shard has it in the slot of
its placement. -/
def connected (tab : List CopyConnection) (h : PGconn) : Prop :=
  ∃ e ∈ tab, e.shardId = h.shardId ∧ h.replica < e.nReplicas ∧
    e.conn.getD h.replica none = some h

/-- The call is a `tmgr->RollbackPrepared`. -/
def Call.isRollbackPrepared : Call → Bool
  | Call.RollbackPrepared _ _ _ => true
  | _ => false

/-- The call is made on the connection `h`: it is the `ConnectToNode` that
opens `h` or has `h` as its connection argument. -/
def Call.onConn (h : PGconn) : Call → Bool
  | Call.ConnectToNode _ _ handle => decide (handle = h)
  | Call.Begin conn => decide (conn = some h)
  | Call.PgShardExecute conn _ => decide (conn = some h)
  | Call.PQputCopyData conn _ => decide (conn = some h)
  | Call.PQputCopyEnd conn _ => decide (conn = some h)
  | Call.Prepare conn _ _ => decide (conn = some h)
  | Call.CommitPrepared conn _ _ => decide (conn = some h)
  | Call.RollbackPrepared conn _ _ => decide (conn = some h)
  | Call.Rollback conn => decide (conn = some h)
  | Call.PQfinish conn => decide (conn = some h)
  | _ => false

/-- The buffers sent for shard `S` while one row is copied to the shards of its
pruned list: the line buffer as it is when the loop reaches an entry of the
list with the id `S`. -/
def sentTo (S : Int) : List ShardInterval → String → List String
  | [], _ => []
  | s :: rest, lineBuf =>
    (if s.id = S then [lineBuf.push (Char.ofNat 10)] else []) ++
      sentTo S rest (lineBuf.push (Char.ofNat 10))

/-- The buffers sent for shard `S` over all rows, in the order of the rows. -/
def rowsSentTo (w : World) (S : Int) : List String :=
  w.rows.flatMap (fun row => sentTo S (prunedList w row) row.line)

/-- The three calls that open the connection for a placement. -/
def openingCalls (p : ShardPlacement) (h : PGconn) (copy : String) : List Call :=
  [Call.ConnectToNode p.nodeName p.nodePort h, Call.Begin (some h),
    Call.PgShardExecute (some h) copy]

/-- The calls that open the connection `h`: those for the placement of its
shard at its index, none when the shard has no such placement. -/
def opening (w : World) (relation : RangeVar) (copyStatement : CopyStmt) (h : PGconn) :
    List Call :=
  match (w.LoadFinalizedShardPlacementList h.shardId)[h.replica]? with
  | some p => openingCalls p h (ConstructCopyStatement w relation copyStatement h.shardId)
  | none => []

/-- Every entry of the table has all its placements connected, none prepared,
and as many slots as the shard has placements. -/
def registered (w : World) (tab : List CopyConnection) : Prop :=
  ∀ e ∈ tab, e.fresh ∧ e.nReplicas = replicaCount w e.shardId

/-- The calls `g` makes on the connection of every replica of an entry, in the
order of the replicas. -/
def entryCalls (e : CopyConnection) (g : Option PGconn → List Call) : List Call :=
  (List.range e.nReplicas).flatMap (fun i => g (e.conn.getD i none))

/-- The text the specification describes for the remote COPY command: the
quoted qualified table name suffixed with the shard id, the column names in
their order, separated by commas inside one pair of parentheses when a column
list is given, `FROM STDIN`, and, when options are given, ` WITH ` and the
options as `name value` pairs separated by commas inside one pair of
parentheses. -/
def describedCopyStatement (w : World) (relation : RangeVar) (copyStatement : CopyStmt)
    (shardId : Int) : String :=
  "COPY " ++ w.quote_qualified_identifier relation.schemaname relation.relname ++ "_" ++
    toString shardId ++ " " ++
    (if copyStatement.attlist ≠ [] then "(" ++ ",".intercalate copyStatement.attlist ++ ")"
      else "") ++
    "FROM STDIN" ++
    (if copyStatement.options ≠ [] then
      " WITH (" ++ ",".intercalate
        (copyStatement.options.map (fun d => d.defname ++ " " ++ d.arg)) ++ ")"
      else "")

/-- The request of the example: `COPY t (a, b) FROM STDIN WITH (format csv)`. -/
def copyTWithOptions : CopyStmt :=
  { relation := some ⟨none, "t"⟩, attlist := ["a", "b"], is_from := true,
    options := [⟨"format", "csv"⟩] }

/-! ## Example tables

A table `t (a, b)` whose partition column is `a`, attribute number 1.  Every
shard has two placements, on the nodes `a` and `b`. -/

/-- Four shards, with ids 2 to 5, over four ranges of the partition value. -/
def fourRanges : List ShardInterval :=
  [⟨2, 0, 9⟩, ⟨3, 10, 19⟩, ⟨4, 20, 29⟩, ⟨5, 30, 39⟩]

/-- Two shards whose ranges overlap: the values 5 to 9 belong to both. -/
def overlappingRanges : List ShardInterval :=
  [⟨2, 0, 9⟩, ⟨5, 5, 39⟩]

/-- Two shards, the first with a negative id. -/
def negativeIdRanges : List ShardInterval :=
  [⟨-3, 0, 9⟩, ⟨5, 30, 39⟩]

/-- A router: the shards whose range holds the value. -/
def pruneByRange (v : Datum) (l : List ShardInterval) : List ShardInterval :=
  l.filter (fun s => decide (s.minValue ≤ v) && decide (v ≤ s.maxValue))

/-- The example world: the table `t` with the given shards, call outcomes and
input rows.  The scan of the hash table yields the entries in the order they
were entered. -/
def exampleWorld (intervals : List ShardInterval) (succeeds : Call → Bool)
    (rows : List CopyRow) : World :=
  { IsDistributedTable := true
    get_rel_name := "t"
    LookupShardIntervalList := intervals
    varattno := 1
    binary := false
    rows := rows
    PruneShardList := pruneByRange
    LoadFinalizedShardPlacementList := fun _ => [⟨"a", 5432⟩, ⟨"b", 5432⟩]
    succeeds := succeeds
    hash_seq := id
    quote_qualified_identifier := fun _ relname => relname
    beyondNulls := false
    beyondValues := 0 }

/-- The statement `COPY t FROM STDIN`. -/
def copyT : CopyStmt :=
  { relation := some ⟨none, "t"⟩, attlist := [], is_from := true, options := [] }

/-- A row of `t` with the same value in both columns. -/
def rowOf (v : Datum) (line : String) : CopyRow :=
  ⟨[v, v], [false, false], line⟩

/-- Three rows for shard 2 and one row for shard 5. -/
def fourRows : List CopyRow :=
  [rowOf 1 "1,1", rowOf 2 "2,2", rowOf 3 "3,3", rowOf 31 "31,31"]

/-- Every call succeeds. -/
def allSucceed : Call → Bool := fun _ => true

/-- Every call succeeds but the given one. -/
def allBut (failing : Call) : Call → Bool := fun c => c != failing

/-! ## Supporting lemmas -/

theorem connectPlacements_withPut (w : World) (put : Option PGconn → String → Bool)
    (copy : String) (shardId : Int) (ps : List ShardPlacement) :
    ∀ (n : Nat) (conn : List (Option PGconn)),
      connectPlacements (w.withPut put) copy shardId ps n conn =
        connectPlacements w copy shardId ps n conn := by
  induction ps with
  | nil => intro n conn; rfl
  | cons p rest ih =>
    intro n conn
    simp only [connectPlacements, World.withPut, withPutCopyData]
    simp only [World.withPut] at ih
    simp only [ih]

theorem getCopyConnection_withPut (w : World) (put : Option PGconn → String → Bool)
    (relation : RangeVar) (stmt : CopyStmt) (shardId : Int) (tab : List CopyConnection) :
    getCopyConnection (w.withPut put) relation stmt shardId tab =
      getCopyConnection w relation stmt shardId tab := by
  simp only [getCopyConnection, connectPlacements_withPut]
  rfl

theorem copyToShards_withPut (w : World) (put : Option PGconn → String → Bool)
    (relation : RangeVar) (stmt : CopyStmt) (l : List ShardInterval) :
    ∀ (lineBuf : String) (tab : List CopyConnection),
      copyToShards (w.withPut put) relation stmt l lineBuf tab =
        copyToShards w relation stmt l lineBuf tab := by
  induction l with
  | nil => intro lineBuf tab; rfl
  | cons s rest ih =>
    intro lineBuf tab
    simp only [copyToShards, getCopyConnection_withPut, ih]

theorem copyRows_withPut (w : World) (put : Option PGconn → String → Bool)
    (relation : RangeVar) (stmt : CopyStmt) (rows : List CopyRow) :
    ∀ (tab : List CopyConnection),
      copyRows (w.withPut put) relation stmt rows tab = copyRows w relation stmt rows tab := by
  induction rows with
  | nil => intro tab; rfl
  | cons r rest ih =>
    intro tab
    simp only [copyRows, copyToShards_withPut, ih]
    rfl

theorem prepareReplicas_withPut (w : World) (put : Option PGconn → String → Bool)
    (rel : String) (e : CopyConnection) (idx : List Nat) :
    ∀ (prepared : List Bool) (failedShard : Int),
      prepareReplicas (w.withPut put) rel e idx prepared failedShard =
        prepareReplicas w rel e idx prepared failedShard := by
  induction idx with
  | nil => intro prepared failedShard; rfl
  | cons i rest ih =>
    intro prepared failedShard
    simp only [prepareReplicas, ih]
    rfl

theorem prepareShards_withPut (w : World) (put : Option PGconn → String → Bool)
    (rel : String) (scan : List CopyConnection) :
    ∀ (failedShard : Int),
      prepareShards (w.withPut put) rel scan failedShard =
        prepareShards w rel scan failedShard := by
  induction scan with
  | nil => intro failedShard; rfl
  | cons e rest ih =>
    intro failedShard
    simp only [prepareShards, prepareReplicas_withPut, ih]

theorem copyFrom_withPut (w : World) (put : Option PGconn → String → Bool)
    (relation : RangeVar) (stmt : CopyStmt) :
    copyFrom (w.withPut put) relation stmt = copyFrom w relation stmt := by
  simp only [copyFrom, copyRows_withPut, prepareShards_withPut]
  rfl

theorem PgShardCopy_withPut (w : World) (put : Option PGconn → String → Bool)
    (stmt : CopyStmt) :
    PgShardCopy (w.withPut put) stmt = PgShardCopy w stmt := by
  simp only [PgShardCopy, copyFrom_withPut]
  rfl

theorem connectPlacements_inRowLoop (w : World) (copy : String) (shardId : Int)
    (ps : List ShardPlacement) :
    ∀ (n : Nat) (conn : List (Option PGconn)),
      ∀ c ∈ (connectPlacements w copy shardId ps n conn).2.1, c.inRowLoop = true := by
  induction ps with
  | nil => intro n conn c hc; simp [connectPlacements] at hc
  | cons p rest ih =>
    intro n conn c hc
    simp only [connectPlacements] at hc
    split at hc
    · split at hc
      · split at hc
        · rcases hres : connectPlacements w copy shardId rest (n + 1)
            (conn.set n (some ⟨shardId, n⟩)) with ⟨conn', calls, err⟩
          have ih' := ih (n + 1) (conn.set n (some ⟨shardId, n⟩))
          rw [hres] at hc ih'
          simp only [List.mem_cons] at hc
          rcases hc with rfl | rfl | rfl | hc
          · rfl
          · rfl
          · rfl
          · exact ih' c hc
        · simp only [List.mem_cons, List.mem_singleton, List.not_mem_nil, or_false] at hc
          rcases hc with rfl | rfl | rfl <;> rfl
      · simp only [List.mem_cons, List.mem_singleton, List.not_mem_nil, or_false] at hc
        rcases hc with rfl | rfl <;> rfl
    · simp only [List.mem_cons, List.mem_singleton, List.not_mem_nil, or_false] at hc
      rcases hc with rfl
      rfl

theorem getCopyConnection_inRowLoop (w : World) (relation : RangeVar) (stmt : CopyStmt)
    (shardId : Int) (tab : List CopyConnection) :
    ∀ c ∈ (getCopyConnection w relation stmt shardId tab).2.2.1, c.inRowLoop = true := by
  intro c hc
  simp only [getCopyConnection] at hc
  split at hc
  · simp at hc
  · rcases hres : connectPlacements w (ConstructCopyStatement w relation stmt shardId) shardId
        (w.LoadFinalizedShardPlacementList shardId) 0
        (List.replicate (w.LoadFinalizedShardPlacementList shardId).length none)
      with ⟨conn', calls, err⟩
    have h := connectPlacements_inRowLoop w (ConstructCopyStatement w relation stmt shardId)
      shardId (w.LoadFinalizedShardPlacementList shardId) 0
      (List.replicate (w.LoadFinalizedShardPlacementList shardId).length none)
    rw [hres] at hc h
    simp only [List.mem_cons] at hc
    rcases hc with rfl | rfl | rfl | hc
    · rfl
    · rfl
    · rfl
    · exact h c hc

theorem replicateRow_inRowLoop (e : CopyConnection) (lineBuf : String) :
    ∀ c ∈ replicateRow e lineBuf, c.inRowLoop = true := by
  intro c hc
  simp only [replicateRow, List.mem_map] at hc
  obtain ⟨i, _, rfl⟩ := hc
  rfl

theorem copyToShards_inRowLoop (w : World) (relation : RangeVar) (stmt : CopyStmt)
    (l : List ShardInterval) :
    ∀ (lineBuf : String) (tab : List CopyConnection),
      ∀ c ∈ (copyToShards w relation stmt l lineBuf tab).2.1, c.inRowLoop = true := by
  induction l with
  | nil => intro lineBuf tab c hc; simp [copyToShards] at hc
  | cons s rest ih =>
    intro lineBuf tab c hc
    have hget := getCopyConnection_inRowLoop w relation stmt s.id tab
    rcases hres : getCopyConnection w relation stmt s.id tab with ⟨e, tab', calls, err⟩
    rw [hres] at hget
    simp only [copyToShards, hres] at hc
    cases err with
    | some err => exact hget c hc
    | none =>
      simp only at hc
      have ih' := ih (lineBuf.push (Char.ofNat 10)) tab'
      rcases hrest : copyToShards w relation stmt rest (lineBuf.push (Char.ofNat 10)) tab'
        with ⟨tab'', later, err'⟩
      rw [hrest] at hc ih'
      simp only [List.mem_append] at hc
      rcases hc with (hc | hc) | hc
      · exact hget c hc
      · exact replicateRow_inRowLoop e _ c hc
      · exact ih' c hc

theorem copyRows_inRowLoop (w : World) (relation : RangeVar) (stmt : CopyStmt)
    (rows : List CopyRow) :
    ∀ (tab : List CopyConnection),
      ∀ c ∈ (copyRows w relation stmt rows tab).2.1, c.inRowLoop = true := by
  induction rows with
  | nil => intro tab c hc; simp [copyRows] at hc
  | cons row rest ih =>
    intro tab c hc
    simp only [copyRows] at hc
    split at hc
    · simp at hc
    · have h := copyToShards_inRowLoop w relation stmt (prunedList w row) row.line tab
      rcases hres : copyToShards w relation stmt (prunedList w row) row.line tab
        with ⟨tab', calls, err⟩
      rw [hres] at hc h
      cases err with
      | some err => exact h c hc
      | none =>
        simp only at hc
        have ih' := ih tab'
        rcases hrest : copyRows w relation stmt rest tab' with ⟨tab'', later, err'⟩
        rw [hrest] at hc ih'
        rcases List.mem_append.1 hc with hc | hc
        · exact h c hc
        · exact ih' c hc

theorem prepareReplicas_inPrepareLoop (w : World) (rel : String) (e : CopyConnection)
    (idx : List Nat) :
    ∀ (prepared : List Bool) (fs0 : Int),
      ∀ c ∈ (prepareReplicas w rel e idx prepared fs0).2.2, c.inPrepareLoop = true := by
  induction idx with
  | nil => intro prepared fs0 c hc; simp [prepareReplicas] at hc
  | cons i rest ih =>
    intro prepared fs0 c hc
    have ih' := ih (prepared.set i true) fs0
    rcases hres : prepareReplicas w rel e rest (prepared.set i true) fs0 with ⟨p, fs, calls⟩
    rw [hres] at ih'
    simp only [prepareReplicas, hres] at hc
    split at hc
    · simp only [List.mem_cons] at hc
      rcases hc with rfl | rfl | hc
      · rfl
      · rfl
      · exact ih' c hc
    · simp only [List.mem_cons, List.mem_singleton, List.not_mem_nil, or_false] at hc
      rcases hc with rfl | rfl <;> rfl

theorem prepareShards_inPrepareLoop (w : World) (rel : String) (scan : List CopyConnection) :
    ∀ (fs0 : Int), ∀ c ∈ (prepareShards w rel scan fs0).2.2, c.inPrepareLoop = true := by
  induction scan with
  | nil => intro fs0 c hc; simp [prepareShards] at hc
  | cons e rest ih =>
    intro fs0 c hc
    simp only [prepareShards] at hc
    split at hc
    · have h := prepareReplicas_inPrepareLoop w rel e (List.range e.nReplicas) e.prepared fs0
      rcases hres : prepareReplicas w rel e (List.range e.nReplicas) e.prepared fs0
        with ⟨p, fs, calls⟩
      have ih' := ih fs
      rcases hrest : prepareShards w rel rest fs with ⟨scan', fs', later⟩
      rw [hres] at hc h
      simp only at hc
      rw [hrest] at hc ih'
      rcases List.mem_append.1 hc with hc | hc
      · exact h c hc
      · exact ih' c hc
    · simp at hc

theorem completeTwoPhaseCommit_inCompletion (rel : String) (scan : List CopyConnection) :
    ∀ c ∈ completeTwoPhaseCommit rel scan, c.inCompletion = true := by
  intro c hc
  simp only [completeTwoPhaseCommit, List.mem_flatMap] at hc
  obtain ⟨e, _, i, _, hc⟩ := hc
  simp only [completeReplica] at hc
  split at hc
  · simp only [List.mem_cons, List.mem_singleton, List.not_mem_nil, or_false] at hc
    rcases hc with rfl | rfl <;> rfl
  · simp only [List.mem_cons, List.mem_singleton, List.not_mem_nil, or_false] at hc
    rcases hc with rfl | rfl | rfl <;> rfl

theorem rollbackTransactions_inRecovery (rel : String) (scan : List CopyConnection) :
    ∀ c ∈ rollbackTransactions rel scan, c.inRecovery = true := by
  intro c hc
  simp only [rollbackTransactions, List.mem_flatMap] at hc
  obtain ⟨e, _, i, _, hc⟩ := hc
  simp only [rollbackReplica] at hc
  split at hc
  · simp only [List.mem_cons, List.mem_singleton, List.not_mem_nil, or_false] at hc
    rcases hc with rfl | rfl <;> rfl
  · simp only [List.mem_cons, List.mem_singleton, List.not_mem_nil, or_false] at hc
    rcases hc with rfl | rfl | rfl <;> rfl

theorem prepareCalls_append (a b : List Call) :
    prepareCalls (a ++ b) = prepareCalls a ++ prepareCalls b := by
  simp [prepareCalls]

theorem prepareReplicas_spec (w : World) (rel : String) (e : CopyConnection) (idx : List Nat) :
    ∀ (prepared : List Bool) (fs0 : Int),
      ((∀ c ∈ prepareCalls (prepareReplicas w rel e idx prepared fs0).2.2, w.succeeds c = true) ∧
        (prepareReplicas w rel e idx prepared fs0).2.1 = fs0) ∨
      (∃ pre conn, prepareCalls (prepareReplicas w rel e idx prepared fs0).2.2 =
          pre ++ [Call.Prepare conn rel e.shardId] ∧
        (∀ c ∈ pre, w.succeeds c = true) ∧
        w.succeeds (Call.Prepare conn rel e.shardId) = false ∧
        (prepareReplicas w rel e idx prepared fs0).2.1 = e.shardId) := by
  induction idx with
  | nil => intro prepared fs0; left; simp [prepareReplicas, prepareCalls]
  | cons i rest ih =>
    intro prepared fs0
    have ih' := ih (prepared.set i true) fs0
    rcases hres : prepareReplicas w rel e rest (prepared.set i true) fs0 with ⟨p, fs, calls⟩
    rw [hres] at ih'
    simp only [prepareReplicas, hres]
    generalize e.conn.getD i none = c0
    by_cases h : w.succeeds (Call.Prepare c0 rel e.shardId) = true
    · simp only [h, if_true]
      have hpc : prepareCalls (Call.PQputCopyEnd c0 none :: Call.Prepare c0 rel e.shardId :: calls)
          = Call.Prepare c0 rel e.shardId :: prepareCalls calls := by
        simp [prepareCalls, Call.isPrepare]
      rw [hpc]
      rcases ih' with ⟨hall, hfs⟩ | ⟨pre, conn, hcalls, hpre, hfail, hfs⟩
      · left
        refine ⟨?_, hfs⟩
        intro c hc
        rcases List.mem_cons.1 hc with rfl | hc
        · exact h
        · exact hall c hc
      · right
        refine ⟨Call.Prepare c0 rel e.shardId :: pre, conn, ?_, ?_, hfail, hfs⟩
        · rw [hcalls]; rfl
        · intro c hc
          rcases List.mem_cons.1 hc with rfl | hc
          · exact h
          · exact hpre c hc
    · right
      have hf : w.succeeds (Call.Prepare c0 rel e.shardId) = false := by simpa using h
      simp only [hf]
      exact ⟨[], c0, by simp [prepareCalls, Call.isPrepare], by simp, hf, by simp⟩

theorem prepareShards_of_nonneg (w : World) (rel : String) (scan : List CopyConnection)
    (fs0 : Int) (h : 0 ≤ fs0) : prepareShards w rel scan fs0 = (scan, fs0, []) := by
  cases scan with
  | nil => rfl
  | cons e rest => simp [prepareShards, not_lt.2 h]

theorem prepareShards_spec (w : World) (rel : String) (scan : List CopyConnection) :
    ∀ (fs0 : Int), fs0 < 0 →
      (firstRefusedPrepare w (prepareShards w rel scan fs0).2.2 = none →
        (prepareShards w rel scan fs0).2.1 = fs0) ∧
      (∀ conn r S, firstRefusedPrepare w (prepareShards w rel scan fs0).2.2 =
          some (Call.Prepare conn r S) → 0 ≤ S →
        (∃ pre, prepareCalls (prepareShards w rel scan fs0).2.2 =
            pre ++ [Call.Prepare conn r S] ∧ ∀ c ∈ pre, w.succeeds c = true) ∧
        (prepareShards w rel scan fs0).2.1 = S) := by
  induction scan with
  | nil =>
    intro fs0 _
    simp [prepareShards, firstRefusedPrepare, prepareCalls]
  | cons e rest ih =>
    intro fs0 hneg
    rcases hres : prepareReplicas w rel e (List.range e.nReplicas) e.prepared fs0
      with ⟨p, fs, calls⟩
    rcases hrest : prepareShards w rel rest fs with ⟨scan', fs', later⟩
    have hcalls : (prepareShards w rel (e :: rest) fs0).2.2 = calls ++ later := by
      simp [prepareShards, hneg, hres, hrest]
    have hfs : (prepareShards w rel (e :: rest) fs0).2.1 = fs' := by
      simp [prepareShards, hneg, hres, hrest]
    rw [hcalls, hfs]
    have hspec := prepareReplicas_spec w rel e (List.range e.nReplicas) e.prepared fs0
    rw [hres] at hspec
    simp only at hspec
    rcases hspec with ⟨hall, hfseq⟩ | ⟨pre, conn, hpc, hpre, hfail, hfseq⟩
    · -- every Prepare of this entry succeeded
      subst hfseq
      have ih' := ih fs hneg
      rw [hrest] at ih'
      simp only at ih'
      have hfind : firstRefusedPrepare w (calls ++ later) = firstRefusedPrepare w later := by
        simp only [firstRefusedPrepare, prepareCalls_append, List.find?_append]
        have : List.find? (fun c => !w.succeeds c) (prepareCalls calls) = none := by
          rw [List.find?_eq_none]
          intro c hc
          simp [hall c hc]
        rw [this]
        simp
      rw [hfind]
      refine ⟨ih'.1, ?_⟩
      intro conn r S hfirst hS
      obtain ⟨⟨pre, hpre, hok⟩, hfs'⟩ := ih'.2 conn r S hfirst hS
      refine ⟨⟨prepareCalls calls ++ pre, ?_, ?_⟩, hfs'⟩
      · rw [prepareCalls_append, hpre, List.append_assoc]
      · intro c hc
        rcases List.mem_append.1 hc with hc | hc
        · exact hall c hc
        · exact hok c hc
    · -- a Prepare of this entry was refused
      subst hfseq
      have hfind : firstRefusedPrepare w (calls ++ later) =
          some (Call.Prepare conn rel e.shardId) := by
        simp only [firstRefusedPrepare, prepareCalls_append, List.find?_append, hpc]
        have h1 : List.find? (fun c => !w.succeeds c) pre = none := by
          rw [List.find?_eq_none]
          intro c hc
          simp [hpre c hc]
        simp [h1, hfail]
      rw [hfind]
      refine ⟨by simp, ?_⟩
      intro conn' r S heq hS
      have heq' : Call.Prepare conn rel e.shardId = Call.Prepare conn' r S := by
        simpa using heq
      injection heq' with h1 h2 h3
      subst h1 h2 h3
      have hstop := prepareShards_of_nonneg w rel rest e.shardId hS
      rw [hrest] at hstop
      injection hstop with _ hstop
      injection hstop with hfs' hlater
      subst hlater
      exact ⟨⟨pre, by simpa using hpc, hpre⟩, hfs'⟩

theorem PgShardCopy_cases (w : World) (stmt : CopyStmt) :
    (∃ relation, stmt.relation = some relation ∧
      PgShardCopy w stmt = copyFrom w relation stmt) ∨
    (PgShardCopy w stmt).trace = [] ∨ ∃ q, (PgShardCopy w stmt).trace = [Call.DoCopy q] := by
  unfold PgShardCopy
  cases hrel : stmt.relation with
  | none => right; left; rfl
  | some relation =>
    simp only
    split
    · split
      · right; left; rfl
      · split
        · right; right; exact ⟨_, rfl⟩
        · split
          · right; left; rfl
          · left; exact ⟨relation, rfl, rfl⟩
    · right; left; rfl

theorem copyFrom_of_error (w : World) (relation : RangeVar) (stmt : CopyStmt)
    (tab : List CopyConnection) (calls : List Call) (err : CopyError)
    (h : copyRows w relation stmt w.rows [] = (tab, calls, some err)) :
    copyFrom w relation stmt =
      { trace := calls ++ rollbackTransactions w.get_rel_name (w.hash_seq tab),
        outcome := Outcome.raised err } := by
  simp only [copyFrom, h]

theorem copyFrom_of_ok (w : World) (relation : RangeVar) (stmt : CopyStmt)
    (tab : List CopyConnection) (calls : List Call)
    (h : copyRows w relation stmt w.rows [] = (tab, calls, none)) :
    copyFrom w relation stmt =
      { trace := calls ++ (prepareShards w w.get_rel_name (w.hash_seq tab) (-1)).2.2 ++
          completeTwoPhaseCommit w.get_rel_name
            (prepareShards w w.get_rel_name (w.hash_seq tab) (-1)).1,
        outcome :=
          if (prepareShards w w.get_rel_name (w.hash_seq tab) (-1)).2.1 ≥ 0 then
            Outcome.raised (CopyError.copyFailedForShard
              (prepareShards w w.get_rel_name (w.hash_seq tab) (-1)).2.1)
          else Outcome.returned true } := by
  rcases hp : prepareShards w w.get_rel_name (w.hash_seq tab) (-1) with ⟨scan, fs, prepares⟩
  simp only [copyFrom, h, hp]
  split <;> rfl

theorem prepareCalls_eq_nil (l : List Call) (h : ∀ c ∈ l, c.isPrepare = false) :
    prepareCalls l = [] := by
  simp only [prepareCalls, List.filter_eq_nil_iff]
  intro c hc
  simp [h c hc]

theorem isPrepare_of_inRowLoop (c : Call) (h : c.inRowLoop = true) : c.isPrepare = false := by
  cases c <;> simp_all [Call.inRowLoop, Call.isPrepare]

theorem isPrepare_of_inCompletion (c : Call) (h : c.inCompletion = true) :
    c.isPrepare = false := by
  cases c <;> simp_all [Call.inCompletion, Call.isPrepare]

theorem isPrepare_of_inRecovery (c : Call) (h : c.inRecovery = true) :
    c.isPrepare = false := by
  cases c <;> simp_all [Call.inRecovery, Call.isPrepare]

theorem connectCount_append (a b : List Call) :
    connectCount (a ++ b) = connectCount a + connectCount b := by
  simp [connectCount]

theorem connectCount_eq_zero (l : List Call) (h : ∀ c ∈ l, c.isConnect = false) :
    connectCount l = 0 := by
  simp only [connectCount, List.countP_eq_zero]
  intro c hc
  simp [h c hc]

theorem hash_search_eq_none (tab : List CopyConnection) (k : Int) :
    hash_search tab k = none ↔ k ∉ shardKeys tab := by
  simp only [hash_search, List.find?_eq_none, shardKeys, List.mem_map, not_exists, not_and]
  constructor
  · intro h e he heq
    exact h e he (by simp [heq])
  · intro h e he heq
    exact h e he (by simpa using heq)

theorem hash_search_some (tab : List CopyConnection) (k : Int) (e : CopyConnection)
    (h : hash_search tab k = some e) : e ∈ tab ∧ e.shardId = k := by
  refine ⟨List.mem_of_find?_eq_some h, ?_⟩
  have := List.find?_some h
  simpa using this

theorem connectPlacements_count (w : World) (copy : String) (shardId : Int)
    (ps : List ShardPlacement) :
    ∀ (n : Nat) (conn : List (Option PGconn)),
      (connectPlacements w copy shardId ps n conn).2.2 = none →
      connectCount (connectPlacements w copy shardId ps n conn).2.1 = ps.length := by
  induction ps with
  | nil => intro n conn _; simp [connectPlacements, connectCount]
  | cons p rest ih =>
    intro n conn
    have ih' := ih (n + 1) (conn.set n (some ⟨shardId, n⟩))
    rcases hres : connectPlacements w copy shardId rest (n + 1)
      (conn.set n (some ⟨shardId, n⟩)) with ⟨conn', calls, err⟩
    rw [hres] at ih'
    simp only [connectPlacements, hres]
    split
    · split
      · split
        · intro herr
          have := ih' herr
          simp only [connectCount] at this ⊢
          simp [List.countP_cons, Call.isConnect, this]
        · intro herr; simp at herr
      · intro herr; simp at herr
    · intro herr; simp at herr

theorem getCopyConnection_found (w : World) (relation : RangeVar) (stmt : CopyStmt)
    (shardId : Int) (tab : List CopyConnection) (e : CopyConnection)
    (h : hash_search tab shardId = some e) :
    getCopyConnection w relation stmt shardId tab = (e, tab, [], none) := by
  simp only [getCopyConnection, h]

theorem getCopyConnection_new (w : World) (relation : RangeVar) (stmt : CopyStmt)
    (shardId : Int) (tab : List CopyConnection)
    (h : hash_search tab shardId = none)
    (herr : (getCopyConnection w relation stmt shardId tab).2.2.2 = none) :
    shardKeys (getCopyConnection w relation stmt shardId tab).2.1 = shardKeys tab ++ [shardId] ∧
    connectCount (getCopyConnection w relation stmt shardId tab).2.2.1 =
      replicaCount w shardId := by
  have hc := connectPlacements_count w (ConstructCopyStatement w relation stmt shardId) shardId
    (w.LoadFinalizedShardPlacementList shardId) 0
    (List.replicate (w.LoadFinalizedShardPlacementList shardId).length none)
  rcases hres : connectPlacements w (ConstructCopyStatement w relation stmt shardId) shardId
    (w.LoadFinalizedShardPlacementList shardId) 0
    (List.replicate (w.LoadFinalizedShardPlacementList shardId).length none)
    with ⟨conn', calls, err⟩
  rw [hres] at hc
  simp only [getCopyConnection, h, hres] at herr ⊢
  simp only at hc
  refine ⟨by simp [shardKeys], ?_⟩
  have := hc herr
  simp only [connectCount] at this ⊢
  simp [List.countP_cons, Call.isConnect, this, replicaCount]

theorem sumReplicas_append (w : World) (a b : List Int) :
    sumReplicas w (a ++ b) = sumReplicas w a + sumReplicas w b := by
  simp [sumReplicas]

theorem replicateRow_connectCount (e : CopyConnection) (lineBuf : String) :
    connectCount (replicateRow e lineBuf) = 0 := by
  apply connectCount_eq_zero
  intro c hc
  simp only [replicateRow, List.mem_map] at hc
  obtain ⟨i, _, rfl⟩ := hc
  rfl

theorem getCopyConnection_count (w : World) (relation : RangeVar) (stmt : CopyStmt)
    (shardId : Int) (tab : List CopyConnection) (hnd : (shardKeys tab).Nodup)
    (herr : (getCopyConnection w relation stmt shardId tab).2.2.2 = none) :
    (shardKeys (getCopyConnection w relation stmt shardId tab).2.1).Nodup ∧
    (∀ k, k ∈ shardKeys (getCopyConnection w relation stmt shardId tab).2.1 ↔
      k ∈ shardKeys tab ∨ k = shardId) ∧
    connectCount (getCopyConnection w relation stmt shardId tab).2.2.1 +
        sumReplicas w (shardKeys tab) =
      sumReplicas w (shardKeys (getCopyConnection w relation stmt shardId tab).2.1) := by
  cases h : hash_search tab shardId with
  | some e =>
    obtain ⟨hmem, hid⟩ := hash_search_some tab shardId e h
    rw [getCopyConnection_found w relation stmt shardId tab e h]
    refine ⟨hnd, ?_, by simp [connectCount]⟩
    intro k
    constructor
    · intro hk; exact Or.inl hk
    · rintro (hk | rfl)
      · exact hk
      · rw [← hid]; exact List.mem_map_of_mem _ hmem
  | none =>
    obtain ⟨hkeys, hcount⟩ := getCopyConnection_new w relation stmt shardId tab h herr
    rw [hkeys, hcount]
    refine ⟨?_, ?_, ?_⟩
    · rw [List.nodup_append]
      refine ⟨hnd, List.nodup_singleton _, ?_⟩
      intro a ha hb
      rw [List.mem_singleton] at hb
      subst hb
      exact (hash_search_eq_none tab a).1 h ha
    · intro k; simp
    · rw [sumReplicas_append]
      simp [sumReplicas, Nat.add_comm]

theorem copyToShards_count (w : World) (relation : RangeVar) (stmt : CopyStmt)
    (l : List ShardInterval) :
    ∀ (lineBuf : String) (tab : List CopyConnection), (shardKeys tab).Nodup →
      (copyToShards w relation stmt l lineBuf tab).2.2 = none →
      (shardKeys (copyToShards w relation stmt l lineBuf tab).1).Nodup ∧
      (∀ k, k ∈ shardKeys (copyToShards w relation stmt l lineBuf tab).1 ↔
        k ∈ shardKeys tab ∨ k ∈ l.map (fun s => s.id)) ∧
      connectCount (copyToShards w relation stmt l lineBuf tab).2.1 +
          sumReplicas w (shardKeys tab) =
        sumReplicas w (shardKeys (copyToShards w relation stmt l lineBuf tab).1) := by
  induction l with
  | nil => intro lineBuf tab hnd _; simp [copyToShards, hnd, connectCount]
  | cons s rest ih =>
    intro lineBuf tab hnd
    have hget := getCopyConnection_count w relation stmt s.id tab hnd
    rcases hres : getCopyConnection w relation stmt s.id tab with ⟨e, tab', calls, err⟩
    rw [hres] at hget
    simp only [copyToShards, hres]
    cases err with
    | some err => intro herr; simp at herr
    | none =>
      simp only
      obtain ⟨hnd', hmem', hcount'⟩ := hget rfl
      have ih' := ih (lineBuf.push (Char.ofNat 10)) tab' hnd'
      rcases hrest : copyToShards w relation stmt rest (lineBuf.push (Char.ofNat 10)) tab'
        with ⟨tab'', later, err'⟩
      rw [hrest] at ih'
      simp only
      intro herr
      obtain ⟨hnd'', hmem'', hcount''⟩ := ih' herr
      refine ⟨hnd'', ?_, ?_⟩
      · intro k
        rw [hmem'' k, hmem' k]
        simp only [List.map_cons, List.mem_cons]
        tauto
      · simp only at hcount' hcount''
        rw [connectCount_append, connectCount_append, replicateRow_connectCount]
        omega

theorem copyRows_count (w : World) (relation : RangeVar) (stmt : CopyStmt)
    (rows : List CopyRow) :
    ∀ (tab : List CopyConnection), (shardKeys tab).Nodup →
      (copyRows w relation stmt rows tab).2.2 = none →
      (shardKeys (copyRows w relation stmt rows tab).1).Nodup ∧
      (∀ k, k ∈ shardKeys (copyRows w relation stmt rows tab).1 ↔
        k ∈ shardKeys tab ∨
          k ∈ rows.flatMap (fun row => (prunedList w row).map (fun s => s.id))) ∧
      connectCount (copyRows w relation stmt rows tab).2.1 + sumReplicas w (shardKeys tab) =
        sumReplicas w (shardKeys (copyRows w relation stmt rows tab).1) := by
  induction rows with
  | nil => intro tab hnd _; simp [copyRows, hnd, connectCount]
  | cons row rest ih =>
    intro tab hnd
    simp only [copyRows]
    split
    · intro herr; simp at herr
    · have h := copyToShards_count w relation stmt (prunedList w row) row.line tab hnd
      rcases hres : copyToShards w relation stmt (prunedList w row) row.line tab
        with ⟨tab', calls, err⟩
      rw [hres] at h
      cases err with
      | some err => intro herr; simp at herr
      | none =>
        simp only
        obtain ⟨hnd', hmem', hcount'⟩ := h rfl
        have ih' := ih tab' hnd'
        rcases hrest : copyRows w relation stmt rest tab' with ⟨tab'', later, err'⟩
        rw [hrest] at ih'
        simp only
        intro herr
        obtain ⟨hnd'', hmem'', hcount''⟩ := ih' herr
        refine ⟨hnd'', ?_, ?_⟩
        · intro k
          rw [hmem'' k, hmem' k]
          simp only [List.flatMap_cons, List.mem_append]
          tauto
        · simp only at hcount' hcount''
          rw [connectCount_append]
          omega

theorem connectPlacements_error (w : World) (copy : String) (shardId : Int)
    (ps : List ShardPlacement) :
    ∀ (n : Nat) (conn : List (Option PGconn)) (err : CopyError),
      (connectPlacements w copy shardId ps n conn).2.2 = some err → err.inRowLoop = true := by
  induction ps with
  | nil => intro n conn err h; simp [connectPlacements] at h
  | cons p rest ih =>
    intro n conn err
    have ih' := ih (n + 1) (conn.set n (some ⟨shardId, n⟩)) err
    rcases hres : connectPlacements w copy shardId rest (n + 1)
      (conn.set n (some ⟨shardId, n⟩)) with ⟨conn', calls, err'⟩
    rw [hres] at ih'
    simp only [connectPlacements, hres]
    split
    · split
      · split
        · exact ih'
        · intro h; simp only [Option.some.injEq] at h; subst h; rfl
      · intro h; simp only [Option.some.injEq] at h; subst h; rfl
    · intro h; simp only [Option.some.injEq] at h; subst h; rfl

theorem getCopyConnection_error (w : World) (relation : RangeVar) (stmt : CopyStmt)
    (shardId : Int) (tab : List CopyConnection) (err : CopyError)
    (h : (getCopyConnection w relation stmt shardId tab).2.2.2 = some err) :
    err.inRowLoop = true := by
  simp only [getCopyConnection] at h
  split at h
  · simp at h
  · have hc := connectPlacements_error w (ConstructCopyStatement w relation stmt shardId)
      shardId (w.LoadFinalizedShardPlacementList shardId) 0
      (List.replicate (w.LoadFinalizedShardPlacementList shardId).length none) err
    rcases hres : connectPlacements w (ConstructCopyStatement w relation stmt shardId) shardId
      (w.LoadFinalizedShardPlacementList shardId) 0
      (List.replicate (w.LoadFinalizedShardPlacementList shardId).length none)
      with ⟨conn', calls, err'⟩
    rw [hres] at hc h
    exact hc h

theorem copyToShards_error (w : World) (relation : RangeVar) (stmt : CopyStmt)
    (l : List ShardInterval) :
    ∀ (lineBuf : String) (tab : List CopyConnection) (err : CopyError),
      (copyToShards w relation stmt l lineBuf tab).2.2 = some err → err.inRowLoop = true := by
  induction l with
  | nil => intro lineBuf tab err h; simp [copyToShards] at h
  | cons s rest ih =>
    intro lineBuf tab err
    have hget := getCopyConnection_error w relation stmt s.id tab err
    rcases hres : getCopyConnection w relation stmt s.id tab with ⟨e, tab', calls, err'⟩
    rw [hres] at hget
    simp only [copyToShards, hres]
    cases err' with
    | some err' => exact hget
    | none =>
      simp only
      have ih' := ih (lineBuf.push (Char.ofNat 10)) tab' err
      rcases hrest : copyToShards w relation stmt rest (lineBuf.push (Char.ofNat 10)) tab'
        with ⟨tab'', later, err''⟩
      rw [hrest] at ih'
      exact ih'

theorem copyRows_error (w : World) (relation : RangeVar) (stmt : CopyStmt)
    (rows : List CopyRow) :
    ∀ (tab : List CopyConnection) (err : CopyError),
      (copyRows w relation stmt rows tab).2.2 = some err → err.inRowLoop = true := by
  induction rows with
  | nil => intro tab err h; simp [copyRows] at h
  | cons row rest ih =>
    intro tab err
    simp only [copyRows]
    split
    · intro h; simp only [Option.some.injEq] at h; subst h; rfl
    · have h := copyToShards_error w relation stmt (prunedList w row) row.line tab err
      rcases hres : copyToShards w relation stmt (prunedList w row) row.line tab
        with ⟨tab', calls, err'⟩
      rw [hres] at h
      cases err' with
      | some err' => exact h
      | none =>
        simp only
        have ih' := ih tab' err
        rcases hrest : copyRows w relation stmt rest tab' with ⟨tab'', later, err''⟩
        rw [hrest] at ih'
        exact ih'

theorem PgShardCopy_pastRowLoop (w : World) (stmt : CopyStmt)
    (hfrom : stmt.is_from = true)
    (hout : (PgShardCopy w stmt).outcome.pastRowLoop = true) :
    ∃ relation tab calls, copyRows w relation stmt w.rows [] = (tab, calls, none) ∧
      PgShardCopy w stmt = copyFrom w relation stmt := by
  unfold PgShardCopy at hout ⊢
  cases hrel : stmt.relation with
  | none => rw [hrel] at hout; simp [Outcome.pastRowLoop] at hout
  | some relation =>
    rw [hrel] at hout
    simp only at hout ⊢
    split at hout
    · split at hout
      · simp [Outcome.pastRowLoop] at hout
      · split at hout
        · simp_all
        · split at hout
          · simp [Outcome.pastRowLoop] at hout
          · rename_i h1 h2 h3 h4
            simp only [h1, h2, h3, h4, if_true, if_false]
            rcases hrows : copyRows w relation stmt w.rows [] with ⟨tab, calls, err⟩
            cases err with
            | none => exact ⟨relation, tab, calls, hrows, by simp⟩
            | some err =>
              exfalso
              rw [copyFrom_of_error w relation stmt tab calls err hrows] at hout
              have := copyRows_error w relation stmt w.rows [] err (by rw [hrows])
              cases err <;> simp_all [Outcome.pastRowLoop, CopyError.inRowLoop]
    · simp [Outcome.pastRowLoop] at hout

theorem isConnect_of_inPrepareLoop (c : Call) (h : c.inPrepareLoop = true) :
    c.isConnect = false := by
  cases c <;> simp_all [Call.inPrepareLoop, Call.isConnect]

theorem isConnect_of_inCompletion (c : Call) (h : c.inCompletion = true) :
    c.isConnect = false := by
  cases c <;> simp_all [Call.inCompletion, Call.isConnect]

theorem handles_length (shardId : Int) (n : Nat) : (handles shardId n).length = n := by
  simp [handles]

theorem handles_succ (shardId : Int) (n : Nat) :
    handles shardId (n + 1) = handles shardId n ++ [some ⟨shardId, n⟩] := by
  simp [handles, List.range_succ]

theorem handles_getD (shardId : Int) (n i : Nat) (h : i < n) :
    (handles shardId n).getD i none = some ⟨shardId, i⟩ := by
  simp [handles, List.getD_eq_getElem?_getD, List.getElem?_map, List.getElem?_range h]

theorem connectPlacements_conn (w : World) (copy : String) (shardId : Int)
    (ps : List ShardPlacement) :
    ∀ (n : Nat),
      (connectPlacements w copy shardId ps n
        (handles shardId n ++ List.replicate ps.length none)).2.2 = none →
      (connectPlacements w copy shardId ps n
        (handles shardId n ++ List.replicate ps.length none)).1 =
        handles shardId (n + ps.length) := by
  induction ps with
  | nil => intro n _; simp [connectPlacements]
  | cons p rest ih =>
    intro n
    have hset : (handles shardId n ++ List.replicate (p :: rest).length none).set n
        (some ⟨shardId, n⟩) = handles shardId (n + 1) ++ List.replicate rest.length none := by
      rw [List.set_append]
      simp [handles_length, handles_succ, List.replicate_succ]
    have ih' := ih (n + 1)
    simp only [connectPlacements, hset]
    rcases hres : connectPlacements w copy shardId rest (n + 1)
      (handles shardId (n + 1) ++ List.replicate rest.length none) with ⟨conn', calls, err⟩
    rw [hres] at ih'
    split
    · split
      · split
        · intro herr
          simp only at ih' herr ⊢
          rw [ih' herr, List.length_cons]
          congr 1
          omega
        · intro herr; simp at herr
      · intro herr; simp at herr
    · intro herr; simp at herr

theorem connectPlacements_handles (w : World) (copy : String) (shardId : Int)
    (ps : List ShardPlacement) :
    ∀ (n : Nat) (conn : List (Option PGconn)) (node : String) (port : Int) (h : PGconn),
      Call.ConnectToNode node port h ∈ (connectPlacements w copy shardId ps n conn).2.1 →
      h.shardId = shardId ∧ h.replica < n + ps.length := by
  induction ps with
  | nil => intro n conn node port h hc; simp [connectPlacements] at hc
  | cons p rest ih =>
    intro n conn node port h hc
    have ih' := ih (n + 1) (conn.set n (some ⟨shardId, n⟩)) node port h
    rcases hres : connectPlacements w copy shardId rest (n + 1)
      (conn.set n (some ⟨shardId, n⟩)) with ⟨conn', calls, err⟩
    rw [hres] at ih'
    simp only [connectPlacements, hres] at hc
    have hhead : Call.ConnectToNode node port h =
        Call.ConnectToNode p.nodeName p.nodePort ⟨shardId, n⟩ →
        h.shardId = shardId ∧ h.replica < n + (p :: rest).length := by
      intro heq
      injection heq with _ _ h3
      subst h3
      simp
    split at hc
    · split at hc
      · split at hc
        · simp only [List.mem_cons] at hc
          rcases hc with hc | hc | hc | hc
          · exact hhead hc
          · cases hc
          · cases hc
          · obtain ⟨h1, h2⟩ := ih' hc
            refine ⟨h1, ?_⟩
            simp only [List.length_cons]; omega
        · simp only [List.mem_cons, List.mem_singleton, List.not_mem_nil, or_false] at hc
          rcases hc with hc | hc | hc
          · exact hhead hc
          · cases hc
          · cases hc
      · simp only [List.mem_cons, List.mem_singleton, List.not_mem_nil, or_false] at hc
        rcases hc with hc | hc
        · exact hhead hc
        · cases hc
    · simp only [List.mem_cons, List.mem_singleton, List.not_mem_nil, or_false] at hc
      exact hhead hc

theorem owns_mono (tab tab' : List CopyConnection) (hsub : ∀ e ∈ tab, e ∈ tab') (h : PGconn)
    (ho : owns tab h) : owns tab' h := by
  obtain ⟨e, he, h1, h2⟩ := ho
  exact ⟨e, hsub e he, h1, h2⟩

theorem getCopyConnection_inv (w : World) (relation : RangeVar) (stmt : CopyStmt)
    (shardId : Int) (tab : List CopyConnection) (hfresh : ∀ e ∈ tab, e.fresh)
    (herr : (getCopyConnection w relation stmt shardId tab).2.2.2 = none) :
    (∀ e ∈ (getCopyConnection w relation stmt shardId tab).2.1, e.fresh) ∧
    (∀ e ∈ tab, e ∈ (getCopyConnection w relation stmt shardId tab).2.1) ∧
    (∀ node port h,
      Call.ConnectToNode node port h ∈ (getCopyConnection w relation stmt shardId tab).2.2.1 →
      owns (getCopyConnection w relation stmt shardId tab).2.1 h) ∧
    (getCopyConnection w relation stmt shardId tab).1 ∈
      (getCopyConnection w relation stmt shardId tab).2.1 ∧
    (getCopyConnection w relation stmt shardId tab).1.shardId = shardId := by
  cases h : hash_search tab shardId with
  | some e =>
    obtain ⟨hmem, hid⟩ := hash_search_some tab shardId e h
    rw [getCopyConnection_found w relation stmt shardId tab e h]
    exact ⟨hfresh, fun e he => he, fun node port h hc => by simp at hc, hmem, hid⟩
  | none =>
    have hconn := connectPlacements_conn w (ConstructCopyStatement w relation stmt shardId)
      shardId (w.LoadFinalizedShardPlacementList shardId) 0
    have hhand := connectPlacements_handles w (ConstructCopyStatement w relation stmt shardId)
      shardId (w.LoadFinalizedShardPlacementList shardId) 0
      (List.replicate (w.LoadFinalizedShardPlacementList shardId).length none)
    have h0 : handles shardId 0 = [] := rfl
    rw [h0, List.nil_append] at hconn
    rcases hres : connectPlacements w (ConstructCopyStatement w relation stmt shardId) shardId
      (w.LoadFinalizedShardPlacementList shardId) 0
      (List.replicate (w.LoadFinalizedShardPlacementList shardId).length none)
      with ⟨conn', calls, err⟩
    rw [hres] at hconn hhand
    simp only [getCopyConnection, h, hres] at herr ⊢
    simp only at hconn hhand
    have hc := hconn herr
    subst hc
    refine ⟨?_, ?_, ?_, by simp, trivial⟩
    · intro e he
      rcases List.mem_append.1 he with he | he
      · exact hfresh e he
      · rw [List.mem_singleton] at he
        subst he
        exact ⟨rfl, by simp [Nat.zero_add]⟩
    · intro e he
      exact List.mem_append_left _ he
    · intro node port h hc
      simp only [List.mem_cons] at hc
      rcases hc with hc | hc | hc | hc
      · cases hc
      · cases hc
      · cases hc
      · obtain ⟨h1, h2⟩ := hhand node port h hc
        refine ⟨_, List.mem_append_right _ (List.mem_singleton_self _), h1.symm, ?_⟩
        simpa using h2

theorem copyToShards_inv (w : World) (relation : RangeVar) (stmt : CopyStmt)
    (l : List ShardInterval) :
    ∀ (lineBuf : String) (tab : List CopyConnection), (∀ e ∈ tab, e.fresh) →
      (copyToShards w relation stmt l lineBuf tab).2.2 = none →
      (∀ e ∈ (copyToShards w relation stmt l lineBuf tab).1, e.fresh) ∧
      (∀ e ∈ tab, e ∈ (copyToShards w relation stmt l lineBuf tab).1) ∧
      (∀ node port h,
        Call.ConnectToNode node port h ∈ (copyToShards w relation stmt l lineBuf tab).2.1 →
        owns (copyToShards w relation stmt l lineBuf tab).1 h) := by
  induction l with
  | nil =>
    intro lineBuf tab hfresh _
    exact ⟨hfresh, fun e he => he, fun node port h hc => by simp [copyToShards] at hc⟩
  | cons s rest ih =>
    intro lineBuf tab hfresh
    have hget := getCopyConnection_inv w relation stmt s.id tab hfresh
    rcases hres : getCopyConnection w relation stmt s.id tab with ⟨e, tab', calls, err⟩
    rw [hres] at hget
    simp only [copyToShards, hres]
    cases err with
    | some err => intro herr; simp at herr
    | none =>
      simp only
      obtain ⟨hfresh', hsub', hown', _, _⟩ := hget rfl
      have ih' := ih (lineBuf.push (Char.ofNat 10)) tab' hfresh'
      rcases hrest : copyToShards w relation stmt rest (lineBuf.push (Char.ofNat 10)) tab'
        with ⟨tab'', later, err'⟩
      rw [hrest] at ih'
      simp only
      intro herr
      obtain ⟨hfresh'', hsub'', hown''⟩ := ih' herr
      refine ⟨hfresh'', fun e he => hsub'' e (hsub' e he), ?_⟩
      intro node port h hc
      simp only [List.mem_append] at hc
      rcases hc with (hc | hc) | hc
      · exact owns_mono tab' tab'' hsub'' h (hown' node port h hc)
      · simp only [replicateRow, List.mem_map] at hc
        obtain ⟨i, _, hc⟩ := hc
        cases hc
      · exact hown'' node port h hc

theorem copyRows_inv (w : World) (relation : RangeVar) (stmt : CopyStmt)
    (rows : List CopyRow) :
    ∀ (tab : List CopyConnection), (∀ e ∈ tab, e.fresh) →
      (copyRows w relation stmt rows tab).2.2 = none →
      (∀ e ∈ (copyRows w relation stmt rows tab).1, e.fresh) ∧
      (∀ e ∈ tab, e ∈ (copyRows w relation stmt rows tab).1) ∧
      (∀ node port h,
        Call.ConnectToNode node port h ∈ (copyRows w relation stmt rows tab).2.1 →
        owns (copyRows w relation stmt rows tab).1 h) := by
  induction rows with
  | nil =>
    intro tab hfresh _
    exact ⟨hfresh, fun e he => he, fun node port h hc => by simp [copyRows] at hc⟩
  | cons row rest ih =>
    intro tab hfresh
    simp only [copyRows]
    split
    · intro herr; simp at herr
    · have h := copyToShards_inv w relation stmt (prunedList w row) row.line tab hfresh
      rcases hres : copyToShards w relation stmt (prunedList w row) row.line tab
        with ⟨tab', calls, err⟩
      rw [hres] at h
      cases err with
      | some err => intro herr; simp at herr
      | none =>
        simp only
        obtain ⟨hfresh', hsub', hown'⟩ := h rfl
        have ih' := ih tab' hfresh'
        rcases hrest : copyRows w relation stmt rest tab' with ⟨tab'', later, err'⟩
        rw [hrest] at ih'
        simp only
        intro herr
        obtain ⟨hfresh'', hsub'', hown''⟩ := ih' herr
        refine ⟨hfresh'', fun e he => hsub'' e (hsub' e he), ?_⟩
        intro node port h hc
        rcases List.mem_append.1 hc with hc | hc
        · exact owns_mono tab' tab'' hsub'' h (hown' node port h hc)
        · exact hown'' node port h hc

theorem prepareReplicas_all (w : World) (rel : String) (e : CopyConnection)
    (hprep : ∀ conn r S, w.succeeds (Call.Prepare conn r S) = true) (idx : List Nat) :
    ∀ (prepared : List Bool) (fs0 : Int),
      (prepareReplicas w rel e idx prepared fs0).2.1 = fs0 ∧
      (∀ i, i ∈ idx → i < prepared.length →
        (prepareReplicas w rel e idx prepared fs0).1.getD i false = true) ∧
      (∀ i, prepared.getD i false = true →
        (prepareReplicas w rel e idx prepared fs0).1.getD i false = true) := by
  induction idx with
  | nil => intro prepared fs0; simp [prepareReplicas]
  | cons i rest ih =>
    intro prepared fs0
    obtain ⟨h1, h2, h3⟩ := ih (prepared.set i true) fs0
    rcases hres : prepareReplicas w rel e rest (prepared.set i true) fs0 with ⟨p, fs, calls⟩
    rw [hres] at h1 h2 h3
    simp only [prepareReplicas, hres, hprep, if_true]
    simp only at h1 h2 h3
    refine ⟨h1, ?_, ?_⟩
    · intro j hj hlt
      rcases List.mem_cons.1 hj with rfl | hj
      · apply h3
        simp [List.getD_eq_getElem?_getD, List.getElem?_set, hlt]
      · exact h2 j hj (by simpa using hlt)
    · intro j hj
      apply h3
      by_cases hij : i = j
      · subst hij
        have hlt : i < prepared.length := by
          by_contra hge
          simp [List.getD_eq_getElem?_getD, List.getElem?_eq_none (not_lt.1 hge)] at hj
        simp [List.getD_eq_getElem?_getD, List.getElem?_set, hlt]
      · simpa [List.getD_eq_getElem?_getD, List.getElem?_set, hij] using hj

theorem prepareShards_all (w : World) (rel : String)
    (hprep : ∀ conn r S, w.succeeds (Call.Prepare conn r S) = true)
    (scan : List CopyConnection) (fs0 : Int) (hneg : fs0 < 0) :
    (prepareShards w rel scan fs0).2.1 = fs0 ∧
    (prepareShards w rel scan fs0).1 = scan.map (fun e =>
      { e with prepared :=
          (prepareReplicas w rel e (List.range e.nReplicas) e.prepared fs0).1 }) := by
  induction scan with
  | nil => simp [prepareShards]
  | cons e rest ih =>
    have h := prepareReplicas_all w rel e hprep (List.range e.nReplicas) e.prepared fs0
    rcases hres : prepareReplicas w rel e (List.range e.nReplicas) e.prepared fs0
      with ⟨p, fs, calls⟩
    rw [hres] at h
    obtain ⟨hfs, -, -⟩ := h
    simp only at hfs
    subst hfs
    rcases hrest : prepareShards w rel rest fs with ⟨scan', fs', later⟩
    rw [hrest] at ih
    simp only [prepareShards, hneg, if_true, hres, hrest, List.map_cons]
    simp only at ih
    exact ⟨ih.1, by rw [ih.2]⟩

theorem allPrepared_of_fresh (w : World) (rel : String)
    (hprep : ∀ conn r S, w.succeeds (Call.Prepare conn r S) = true)
    (e : CopyConnection) (hfresh : e.fresh) (fs0 : Int) :
    CopyConnection.allPrepared { e with prepared :=
      (prepareReplicas w rel e (List.range e.nReplicas) e.prepared fs0).1 } := by
  intro i hi
  obtain ⟨-, h2, -⟩ := prepareReplicas_all w rel e hprep (List.range e.nReplicas) e.prepared fs0
  simp only at hi ⊢
  apply h2 i (List.mem_range.2 hi)
  rw [hfresh.1]
  simpa using hi

theorem completeTwoPhaseCommit_allPrepared (rel : String) (scan : List CopyConnection)
    (hall : ∀ e ∈ scan, e.allPrepared) :
    (∀ c ∈ completeTwoPhaseCommit rel scan, c.isRollback = false) ∧
    (∀ e ∈ scan, ∀ i, i < e.nReplicas →
      Call.CommitPrepared (e.conn.getD i none) rel e.shardId ∈
        completeTwoPhaseCommit rel scan) := by
  constructor
  · intro c hc
    simp only [completeTwoPhaseCommit, List.mem_flatMap, List.mem_range] at hc
    obtain ⟨e, he, i, hi, hc⟩ := hc
    simp only [completeReplica, hall e he i hi, if_true, List.mem_cons, List.mem_singleton,
      List.not_mem_nil, or_false] at hc
    rcases hc with rfl | rfl <;> rfl
  · intro e he i hi
    simp only [completeTwoPhaseCommit, List.mem_flatMap, List.mem_range]
    refine ⟨e, he, i, hi, ?_⟩
    simp only [completeReplica, hall e he i hi, if_true, List.mem_cons, true_or]

theorem isRollback_of_inRowLoop (c : Call) (h : c.inRowLoop = true) : c.isRollback = false := by
  cases c <;> simp_all [Call.inRowLoop, Call.isRollback]

theorem isRollback_of_inPrepareLoop (c : Call) (h : c.inPrepareLoop = true) :
    c.isRollback = false := by
  cases c <;> simp_all [Call.inPrepareLoop, Call.isRollback]

theorem isCommitPrepared_of_inRowLoop (c : Call) (h : c.inRowLoop = true) :
    c.isCommitPrepared = false := by
  cases c <;> simp_all [Call.inRowLoop, Call.isCommitPrepared]

theorem isCommitPrepared_of_inRecovery (c : Call) (h : c.inRecovery = true) :
    c.isCommitPrepared = false := by
  cases c <;> simp_all [Call.inRecovery, Call.isCommitPrepared]

theorem isConnect_of_mem_prepare_completion (w : World) (rel : String)
    (scan scan' : List CopyConnection) (fs0 : Int) (c : Call)
    (hc : c ∈ (prepareShards w rel scan fs0).2.2 ++ completeTwoPhaseCommit rel scan') :
    c.isConnect = false := by
  rcases List.mem_append.1 hc with hc | hc
  · exact isConnect_of_inPrepareLoop c (prepareShards_inPrepareLoop _ _ _ _ c hc)
  · exact isConnect_of_inCompletion c (completeTwoPhaseCommit_inCompletion _ _ c hc)

/-- A run that issued a `CommitPrepared` is a COPY FROM whose row loop ended
without an error. -/
theorem copyRows_ok_of_commitPrepared (w : World) (stmt : CopyStmt) (c : Call)
    (hc : c ∈ (PgShardCopy w stmt).trace) (hcp : c.isCommitPrepared = true) :
    ∃ relation tab calls, copyRows w relation stmt w.rows [] = (tab, calls, none) ∧
      PgShardCopy w stmt = copyFrom w relation stmt := by
  rcases PgShardCopy_cases w stmt with ⟨relation, _, heq⟩ | hnil | ⟨q, hq⟩
  · rcases hrows : copyRows w relation stmt w.rows [] with ⟨tab, calls, err⟩
    cases err with
    | none => exact ⟨relation, tab, calls, hrows, heq⟩
    | some err =>
      exfalso
      rw [heq, copyFrom_of_error w relation stmt tab calls err hrows] at hc
      rcases List.mem_append.1 hc with hc | hc
      · have h1 := copyRows_inRowLoop w relation stmt w.rows [] c (by rw [hrows]; exact hc)
        have h2 := isCommitPrepared_of_inRowLoop c h1
        rw [hcp] at h2
        exact Bool.noConfusion h2
      · have h2 := isCommitPrepared_of_inRecovery c (rollbackTransactions_inRecovery _ _ c hc)
        rw [hcp] at h2
        exact Bool.noConfusion h2
  · rw [hnil] at hc; simp at hc
  · rw [hq] at hc
    simp only [List.mem_singleton] at hc
    subst hc
    exact Bool.noConfusion hcp

theorem connected_mono (tab tab' : List CopyConnection) (hsub : ∀ e ∈ tab, e ∈ tab')
    (h : PGconn) (hc : connected tab h) : connected tab' h := by
  obtain ⟨e, he, h1, h2, h3⟩ := hc
  exact ⟨e, hsub e he, h1, h2, h3⟩

theorem replicate_false_getD (n i : Nat) : (List.replicate n false).getD i false = false := by
  by_cases h : i < n
  · simp [List.getD_eq_getElem?_getD, List.getElem?_replicate, h]
  · simp [List.getD_eq_getElem?_getD, List.getElem?_replicate, h]

theorem connectPlacements_slots (w : World) (copy : String) (shardId : Int)
    (ps : List ShardPlacement) :
    ∀ (n : Nat) (conn : List (Option PGconn)), n + ps.length ≤ conn.length →
      (∀ j, j < n → (connectPlacements w copy shardId ps n conn).1.getD j none =
        conn.getD j none) ∧
      (∀ node port h,
        Call.ConnectToNode node port h ∈ (connectPlacements w copy shardId ps n conn).2.1 →
        w.succeeds (Call.ConnectToNode node port h) = true →
        h.shardId = shardId ∧ h.replica < n + ps.length ∧
          (connectPlacements w copy shardId ps n conn).1.getD h.replica none = some h) := by
  induction ps with
  | nil =>
    intro n conn _
    exact ⟨fun j _ => rfl, fun node port h hc => by simp [connectPlacements] at hc⟩
  | cons p rest ih =>
    intro n conn hlen
    simp only [List.length_cons] at hlen
    have hlen' : n + 1 + rest.length ≤ (conn.set n (some ⟨shardId, n⟩)).length := by
      rw [List.length_set]; omega
    obtain ⟨ihkeep, ihcalls⟩ := ih (n + 1) (conn.set n (some ⟨shardId, n⟩)) hlen'
    have hsetn : (conn.set n (some (PGconn.mk shardId n))).getD n none =
        some (PGconn.mk shardId n) := by
      have : n < conn.length := by omega
      simp [List.getD_eq_getElem?_getD, List.getElem?_set, this]
    have hsetj : ∀ j, j < n → (conn.set n (some (PGconn.mk shardId n))).getD j none =
        conn.getD j none := by
      intro j hj
      have : n ≠ j := by omega
      simp [List.getD_eq_getElem?_getD, List.getElem?_set, this]
    rcases hres : connectPlacements w copy shardId rest (n + 1)
      (conn.set n (some ⟨shardId, n⟩)) with ⟨conn', calls, err⟩
    rw [hres] at ihkeep ihcalls
    simp only at ihkeep ihcalls
    have hhead : ∀ node port h (c1 : List (Option PGconn)),
        c1.getD n none = some (PGconn.mk shardId n) →
        Call.ConnectToNode node port h =
          Call.ConnectToNode p.nodeName p.nodePort ⟨shardId, n⟩ →
        h.shardId = shardId ∧ h.replica < n + (rest.length + 1) ∧
          c1.getD h.replica none = some h := by
      intro node port h c1 hc1 heq
      injection heq with _ _ h3
      subst h3
      exact ⟨rfl, by simp, hc1⟩
    simp only [connectPlacements, hres, List.length_cons]
    split
    · split
      · split
        · refine ⟨fun j hj => ?_, fun node port h hc hs => ?_⟩
          · rw [ihkeep j (by omega), hsetj j hj]
          · simp only [List.mem_cons] at hc
            rcases hc with hc | hc | hc | hc
            · exact hhead node port h conn' (by rw [ihkeep n (by omega), hsetn]) hc
            · cases hc
            · cases hc
            · obtain ⟨h1, h2, h3⟩ := ihcalls node port h hc hs
              exact ⟨h1, by omega, h3⟩
        · refine ⟨fun j hj => hsetj j hj, fun node port h hc hs => ?_⟩
          simp only [List.mem_cons, List.mem_singleton, List.not_mem_nil, or_false] at hc
          rcases hc with hc | hc | hc
          · exact hhead node port h _ hsetn hc
          · cases hc
          · cases hc
      · refine ⟨fun j hj => hsetj j hj, fun node port h hc hs => ?_⟩
        simp only [List.mem_cons, List.mem_singleton, List.not_mem_nil, or_false] at hc
        rcases hc with hc | hc
        · exact hhead node port h _ hsetn hc
        · cases hc
    · rename_i hfail
      refine ⟨fun j _ => rfl, fun node port h hc hs => ?_⟩
      simp only [List.mem_singleton] at hc
      rw [hc] at hs
      exact absurd hs hfail

theorem getCopyConnection_rec (w : World) (relation : RangeVar) (stmt : CopyStmt)
    (shardId : Int) (tab : List CopyConnection) (hun : ∀ e ∈ tab, e.unprepared) :
    (∀ e ∈ (getCopyConnection w relation stmt shardId tab).2.1, e.unprepared) ∧
    (∀ e ∈ tab, e ∈ (getCopyConnection w relation stmt shardId tab).2.1) ∧
    (∀ node port h,
      Call.ConnectToNode node port h ∈ (getCopyConnection w relation stmt shardId tab).2.2.1 →
      w.succeeds (Call.ConnectToNode node port h) = true →
      connected (getCopyConnection w relation stmt shardId tab).2.1 h) := by
  cases h : hash_search tab shardId with
  | some e =>
    rw [getCopyConnection_found w relation stmt shardId tab e h]
    exact ⟨hun, fun e he => he, fun node port h hc => by simp at hc⟩
  | none =>
    have hslots := connectPlacements_slots w (ConstructCopyStatement w relation stmt shardId)
      shardId (w.LoadFinalizedShardPlacementList shardId) 0
      (List.replicate (w.LoadFinalizedShardPlacementList shardId).length none) (by simp)
    rcases hres : connectPlacements w (ConstructCopyStatement w relation stmt shardId) shardId
      (w.LoadFinalizedShardPlacementList shardId) 0
      (List.replicate (w.LoadFinalizedShardPlacementList shardId).length none)
      with ⟨conn', calls, err⟩
    rw [hres] at hslots
    obtain ⟨-, hcalls⟩ := hslots
    simp only at hcalls
    simp only [getCopyConnection, h, hres]
    refine ⟨?_, fun e he => List.mem_append_left _ he, ?_⟩
    · intro e he
      rcases List.mem_append.1 he with he | he
      · exact hun e he
      · rw [List.mem_singleton] at he
        subst he
        intro i
        exact replicate_false_getD _ i
    · intro node port h hc hs
      simp only [List.mem_cons] at hc
      rcases hc with hc | hc | hc | hc
      · cases hc
      · cases hc
      · cases hc
      · obtain ⟨h1, h2, h3⟩ := hcalls node port h hc hs
        exact ⟨_, List.mem_append_right _ (List.mem_singleton_self _), h1.symm,
          by simpa using h2, h3⟩

theorem copyToShards_rec (w : World) (relation : RangeVar) (stmt : CopyStmt)
    (l : List ShardInterval) :
    ∀ (lineBuf : String) (tab : List CopyConnection), (∀ e ∈ tab, e.unprepared) →
      (∀ e ∈ (copyToShards w relation stmt l lineBuf tab).1, e.unprepared) ∧
      (∀ e ∈ tab, e ∈ (copyToShards w relation stmt l lineBuf tab).1) ∧
      (∀ node port h,
        Call.ConnectToNode node port h ∈ (copyToShards w relation stmt l lineBuf tab).2.1 →
        w.succeeds (Call.ConnectToNode node port h) = true →
        connected (copyToShards w relation stmt l lineBuf tab).1 h) := by
  induction l with
  | nil =>
    intro lineBuf tab hun
    exact ⟨hun, fun e he => he, fun node port h hc => by simp [copyToShards] at hc⟩
  | cons s rest ih =>
    intro lineBuf tab hun
    obtain ⟨hun', hsub', hconn'⟩ := getCopyConnection_rec w relation stmt s.id tab hun
    rcases hres : getCopyConnection w relation stmt s.id tab with ⟨e, tab', calls, err⟩
    rw [hres] at hun' hsub' hconn'
    simp only at hun' hsub' hconn'
    simp only [copyToShards, hres]
    cases err with
    | some err => exact ⟨hun', hsub', hconn'⟩
    | none =>
      simp only
      obtain ⟨hun'', hsub'', hconn''⟩ := ih (lineBuf.push (Char.ofNat 10)) tab' hun'
      rcases hrest : copyToShards w relation stmt rest (lineBuf.push (Char.ofNat 10)) tab'
        with ⟨tab'', later, err'⟩
      rw [hrest] at hun'' hsub'' hconn''
      simp only at hun'' hsub'' hconn'' ⊢
      refine ⟨hun'', fun e he => hsub'' e (hsub' e he), ?_⟩
      intro node port h hc hs
      simp only [List.mem_append] at hc
      rcases hc with (hc | hc) | hc
      · exact connected_mono tab' tab'' hsub'' h (hconn' node port h hc hs)
      · simp only [replicateRow, List.mem_map] at hc
        obtain ⟨i, _, hc⟩ := hc
        cases hc
      · exact hconn'' node port h hc hs

theorem copyRows_rec (w : World) (relation : RangeVar) (stmt : CopyStmt)
    (rows : List CopyRow) :
    ∀ (tab : List CopyConnection), (∀ e ∈ tab, e.unprepared) →
      (∀ e ∈ (copyRows w relation stmt rows tab).1, e.unprepared) ∧
      (∀ e ∈ tab, e ∈ (copyRows w relation stmt rows tab).1) ∧
      (∀ node port h,
        Call.ConnectToNode node port h ∈ (copyRows w relation stmt rows tab).2.1 →
        w.succeeds (Call.ConnectToNode node port h) = true →
        connected (copyRows w relation stmt rows tab).1 h) := by
  induction rows with
  | nil =>
    intro tab hun
    exact ⟨hun, fun e he => he, fun node port h hc => by simp [copyRows] at hc⟩
  | cons row rest ih =>
    intro tab hun
    simp only [copyRows]
    split
    · exact ⟨hun, fun e he => he, fun node port h hc => by simp at hc⟩
    · obtain ⟨hun', hsub', hconn'⟩ :=
        copyToShards_rec w relation stmt (prunedList w row) row.line tab hun
      rcases hres : copyToShards w relation stmt (prunedList w row) row.line tab
        with ⟨tab', calls, err⟩
      rw [hres] at hun' hsub' hconn'
      simp only at hun' hsub' hconn'
      cases err with
      | some err => exact ⟨hun', hsub', hconn'⟩
      | none =>
        simp only
        obtain ⟨hun'', hsub'', hconn''⟩ := ih tab' hun'
        rcases hrest : copyRows w relation stmt rest tab' with ⟨tab'', later, err'⟩
        rw [hrest] at hun'' hsub'' hconn''
        simp only at hun'' hsub'' hconn'' ⊢
        refine ⟨hun'', fun e he => hsub'' e (hsub' e he), ?_⟩
        intro node port h hc hs
        rcases List.mem_append.1 hc with hc | hc
        · exact connected_mono tab' tab'' hsub'' h (hconn' node port h hc hs)
        · exact hconn'' node port h hc hs

theorem rollbackTransactions_unprepared (rel : String) (scan : List CopyConnection)
    (hun : ∀ e ∈ scan, e.unprepared) :
    (∀ c ∈ rollbackTransactions rel scan, c.isRollbackPrepared = false) ∧
    (∀ e ∈ scan, ∀ i, i < e.nReplicas →
      Call.PQputCopyEnd (e.conn.getD i none) (some "Aborted because of failure on some shard") ∈
        rollbackTransactions rel scan ∧
      Call.Rollback (e.conn.getD i none) ∈ rollbackTransactions rel scan ∧
      Call.PQfinish (e.conn.getD i none) ∈ rollbackTransactions rel scan) := by
  constructor
  · intro c hc
    simp only [rollbackTransactions, List.mem_flatMap, List.mem_range] at hc
    obtain ⟨e, he, i, _, hc⟩ := hc
    simp only [rollbackReplica, hun e he i, Bool.false_eq_true, if_false, List.mem_cons,
      List.mem_singleton, List.not_mem_nil, or_false] at hc
    rcases hc with rfl | rfl | rfl <;> rfl
  · intro e he i hi
    have hmem : ∀ c, c ∈ rollbackReplica rel e i → c ∈ rollbackTransactions rel scan := by
      intro c hc
      simp only [rollbackTransactions, List.mem_flatMap, List.mem_range]
      exact ⟨e, he, i, hi, hc⟩
    have hrep : rollbackReplica rel e i =
        [Call.PQputCopyEnd (e.conn.getD i none)
            (some "Aborted because of failure on some shard"),
          Call.Rollback (e.conn.getD i none), Call.PQfinish (e.conn.getD i none)] := by
      simp only [rollbackReplica, hun e he i, Bool.false_eq_true, if_false]
    rw [hrep] at hmem
    exact ⟨hmem _ (by simp only [List.mem_cons, true_or]),
      hmem _ (by simp only [List.mem_cons, true_or, or_true]),
      hmem _ (List.mem_cons_of_mem _ (List.mem_cons_of_mem _ (List.mem_singleton_self _)))⟩

theorem PgShardCopy_rowLoopError (w : World) (stmt : CopyStmt) (err : CopyError)
    (hout : (PgShardCopy w stmt).outcome = Outcome.raised err)
    (herr : err.inRowLoop = true) :
    ∃ relation tab calls, copyRows w relation stmt w.rows [] = (tab, calls, some err) ∧
      PgShardCopy w stmt = copyFrom w relation stmt := by
  unfold PgShardCopy at hout ⊢
  cases hrel : stmt.relation with
  | none => rw [hrel] at hout; simp at hout
  | some relation =>
    rw [hrel] at hout
    simp only at hout ⊢
    split at hout
    · split at hout
      · simp only [Outcome.raised.injEq] at hout
        subst hout
        simp [CopyError.inRowLoop] at herr
      · split at hout
        · simp at hout
        · split at hout
          · simp only [Outcome.raised.injEq] at hout
            subst hout
            simp [CopyError.inRowLoop] at herr
          · rename_i h1 h2 h3 h4
            simp only [h1, h2, h3, h4, if_true, if_false]
            rcases hrows : copyRows w relation stmt w.rows [] with ⟨tab, calls, err'⟩
            cases err' with
            | some err' =>
              rw [copyFrom_of_error w relation stmt tab calls err' hrows] at hout
              simp only [Outcome.raised.injEq] at hout
              subst hout
              exact ⟨relation, tab, calls, hrows, by simp⟩
            | none =>
              exfalso
              rw [copyFrom_of_ok w relation stmt tab calls hrows] at hout
              simp only at hout
              split at hout
              · simp only [Outcome.raised.injEq] at hout
                subst hout
                simp [CopyError.inRowLoop] at herr
              · simp at hout
    · simp at hout

theorem isCommitPrepared_of_inPrepareLoop (c : Call) (h : c.inPrepareLoop = true) :
    c.isCommitPrepared = false := by
  cases c <;> simp_all [Call.inPrepareLoop, Call.isCommitPrepared]

theorem isRollbackPrepared_of_inRowLoop (c : Call) (h : c.inRowLoop = true) :
    c.isRollbackPrepared = false := by
  cases c <;> simp_all [Call.inRowLoop, Call.isRollbackPrepared]

theorem isConnect_of_inRecovery (c : Call) (h : c.inRecovery = true) :
    c.isConnect = false := by
  cases c <;> simp_all [Call.inRecovery, Call.isConnect]

/-- When the row loop raises an error (a null value in the column that is
tested, a failed connect, a failed start of the remote copy), the recovery of
`PG_CATCH` runs: no `Prepare`, `CommitPrepared` or `RollbackPrepared` is issued
in the whole run, and every connection that was opened has its copy stream
ended with the abort message, is sent a plain `Rollback` and is closed.  The
scan of the hash table is taken to yield every entry once. -/
theorem row_loop_error_rolls_back (w : World) (copyStatement : CopyStmt) (err : CopyError)
    (hscan : ∀ l, (w.hash_seq l).Perm l)
    (hout : (PgShardCopy w copyStatement).outcome = Outcome.raised err)
    (herr : err.inRowLoop = true) :
    (∀ c ∈ (PgShardCopy w copyStatement).trace,
      c.isPrepare = false ∧ c.isCommitPrepared = false ∧ c.isRollbackPrepared = false) ∧
    (∀ node port handle,
      Call.ConnectToNode node port handle ∈ (PgShardCopy w copyStatement).trace →
      w.succeeds (Call.ConnectToNode node port handle) = true →
      Call.PQputCopyEnd (some handle) (some "Aborted because of failure on some shard") ∈
        (PgShardCopy w copyStatement).trace ∧
      Call.Rollback (some handle) ∈ (PgShardCopy w copyStatement).trace ∧
      Call.PQfinish (some handle) ∈ (PgShardCopy w copyStatement).trace) := by
  obtain ⟨relation, tab, calls, hrows, heq⟩ :=
    PgShardCopy_rowLoopError w copyStatement err hout herr
  rw [heq, copyFrom_of_error w relation copyStatement tab calls err hrows]
  obtain ⟨hun, -, hconn⟩ := copyRows_rec w relation copyStatement w.rows [] (by simp)
  rw [hrows] at hun hconn
  simp only at hun hconn
  have hun' : ∀ e ∈ w.hash_seq tab, e.unprepared :=
    fun e he => hun e ((hscan tab).mem_iff.1 he)
  obtain ⟨hnorp, hall⟩ := rollbackTransactions_unprepared w.get_rel_name _ hun'
  have hloop : ∀ c ∈ calls, c.inRowLoop = true := by
    intro c hc
    exact copyRows_inRowLoop w relation copyStatement w.rows [] c (by rw [hrows]; exact hc)
  constructor
  · intro c hc
    rcases List.mem_append.1 hc with hc | hc
    · exact ⟨isPrepare_of_inRowLoop c (hloop c hc),
        isCommitPrepared_of_inRowLoop c (hloop c hc),
        isRollbackPrepared_of_inRowLoop c (hloop c hc)⟩
    · have hr := rollbackTransactions_inRecovery _ _ c hc
      exact ⟨isPrepare_of_inRecovery c hr, isCommitPrepared_of_inRecovery c hr, hnorp c hc⟩
  · intro node port handle hc hs
    have hc' : Call.ConnectToNode node port handle ∈ calls := by
      rcases List.mem_append.1 hc with hc | hc
      · exact hc
      · have := isConnect_of_inRecovery _ (rollbackTransactions_inRecovery _ _ _ hc)
        exact Bool.noConfusion this
    obtain ⟨e, he, -, hlt, hget⟩ := hconn node port handle hc' hs
    obtain ⟨h1, h2, h3⟩ := hall e ((hscan tab).mem_iff.2 he) handle.replica hlt
    rw [hget] at h1 h2 h3
    exact ⟨List.mem_append_right _ h1, List.mem_append_right _ h2,
      List.mem_append_right _ h3⟩

theorem openingCalls_filter (p : ShardPlacement) (h h' : PGconn) (copy : String) :
    (openingCalls p h' copy).filter (Call.onConn h) =
      if h' = h then openingCalls p h' copy else [] := by
  by_cases hh : h' = h
  · subst hh; simp [openingCalls, Call.onConn]
  · simp [openingCalls, Call.onConn, hh]

theorem connectPlacements_ok (w : World) (hok : ∀ c, w.succeeds c = true) (copy : String)
    (shardId : Int) (ps : List ShardPlacement) :
    ∀ (n : Nat) (conn : List (Option PGconn)),
      (connectPlacements w copy shardId ps n conn).2.2 = none ∧
      ∀ h : PGconn, (connectPlacements w copy shardId ps n conn).2.1.filter (Call.onConn h) =
        if h.shardId = shardId ∧ n ≤ h.replica then
          (match ps[h.replica - n]? with
            | some p => openingCalls p h copy
            | none => [])
        else [] := by
  induction ps with
  | nil =>
    intro n conn
    refine ⟨rfl, fun h => ?_⟩
    simp [connectPlacements]
  | cons p rest ih =>
    intro n conn
    obtain ⟨iherr, ihf⟩ := ih (n + 1) (conn.set n (some ⟨shardId, n⟩))
    rcases hres : connectPlacements w copy shardId rest (n + 1)
      (conn.set n (some ⟨shardId, n⟩)) with ⟨conn', calls, err⟩
    rw [hres] at iherr ihf
    simp only at iherr ihf
    simp only [connectPlacements, hres, hok, if_true]
    refine ⟨iherr, fun h => ?_⟩
    have hsplit : (Call.ConnectToNode p.nodeName p.nodePort ⟨shardId, n⟩ ::
        Call.Begin (some ⟨shardId, n⟩) :: Call.PgShardExecute (some ⟨shardId, n⟩) copy :: calls)
        = openingCalls p ⟨shardId, n⟩ copy ++ calls := rfl
    rw [hsplit, List.filter_append, openingCalls_filter, ihf h]
    by_cases hs : h.shardId = shardId
    · by_cases hn : h.replica = n
      · have hh : (⟨shardId, n⟩ : PGconn) = h := by
          cases h; simp only at hs hn; subst hs hn; rfl
        have h1 : ¬ (n + 1 ≤ h.replica) := by omega
        simp [hh, hs, hn, h1]
      · have hh : ¬ ((⟨shardId, n⟩ : PGconn) = h) := by
          intro heq; apply hn; rw [← heq]
        by_cases hlt : n ≤ h.replica
        · have h1 : n + 1 ≤ h.replica := by omega
          have h2 : h.replica - n = (h.replica - (n + 1)) + 1 := by omega
          simp only [hh, if_false, List.nil_append, hs, h1, and_self, if_true, hlt]
          rw [h2, List.getElem?_cons_succ]
        · have h1 : ¬ (n + 1 ≤ h.replica) := by omega
          simp [hh, hs, h1, hlt]
    · have hh : ¬ ((⟨shardId, n⟩ : PGconn) = h) := by
        intro heq; apply hs; rw [← heq]
      simp [hh, hs]

theorem getCopyConnection_ok (w : World) (hok : ∀ c, w.succeeds c = true)
    (relation : RangeVar) (stmt : CopyStmt) (shardId : Int) (tab : List CopyConnection)
    (hreg : registered w tab) :
    (getCopyConnection w relation stmt shardId tab).2.2.2 = none ∧
    registered w (getCopyConnection w relation stmt shardId tab).2.1 ∧
    (getCopyConnection w relation stmt shardId tab).1 ∈
      (getCopyConnection w relation stmt shardId tab).2.1 ∧
    (getCopyConnection w relation stmt shardId tab).1.shardId = shardId ∧
    ∀ h : PGconn,
      (getCopyConnection w relation stmt shardId tab).2.2.1.filter (Call.onConn h) =
        if shardId ∈ shardKeys tab ∨ h.shardId ≠ shardId then []
        else opening w relation stmt h := by
  cases hs : hash_search tab shardId with
  | some e =>
    obtain ⟨hmem, hid⟩ := hash_search_some tab shardId e hs
    rw [getCopyConnection_found w relation stmt shardId tab e hs]
    refine ⟨rfl, hreg, hmem, hid, fun h => ?_⟩
    have : shardId ∈ shardKeys tab := by
      rw [← hid]; exact List.mem_map_of_mem _ hmem
    simp [this]
  | none =>
    have hnot : shardId ∉ shardKeys tab := (hash_search_eq_none tab shardId).1 hs
    obtain ⟨hcerr, hcf⟩ := connectPlacements_ok w hok
      (ConstructCopyStatement w relation stmt shardId) shardId
      (w.LoadFinalizedShardPlacementList shardId) 0
      (List.replicate (w.LoadFinalizedShardPlacementList shardId).length none)
    have herr : (getCopyConnection w relation stmt shardId tab).2.2.2 = none := by
      rcases hres : connectPlacements w (ConstructCopyStatement w relation stmt shardId)
        shardId (w.LoadFinalizedShardPlacementList shardId) 0
        (List.replicate (w.LoadFinalizedShardPlacementList shardId).length none)
        with ⟨conn', calls, err⟩
      rw [hres] at hcerr
      simp only [getCopyConnection, hs, hres]
      exact hcerr
    obtain ⟨hfresh, -, -, hmem, hid⟩ :=
      getCopyConnection_inv w relation stmt shardId tab (fun e he => (hreg e he).1) herr
    rcases hres : connectPlacements w (ConstructCopyStatement w relation stmt shardId)
      shardId (w.LoadFinalizedShardPlacementList shardId) 0
      (List.replicate (w.LoadFinalizedShardPlacementList shardId).length none)
      with ⟨conn', calls, err⟩
    rw [hres] at hcf
    simp only at hcf
    refine ⟨herr, ?_, hmem, hid, fun h => ?_⟩
    · intro e he
      refine ⟨hfresh e he, ?_⟩
      simp only [getCopyConnection, hs, hres] at he
      rcases List.mem_append.1 he with he | he
      · exact (hreg e he).2
      · rw [List.mem_singleton] at he
        subst he
        rfl
    · simp only [getCopyConnection, hs, hres]
      have h3 : (Call.LockShardDistributionMetadata shardId :: Call.LockShardData shardId ::
          Call.LoadFinalizedShardPlacementList shardId :: calls).filter (Call.onConn h) =
          calls.filter (Call.onConn h) := by
        simp [List.filter_cons, Call.onConn]
      rw [h3, hcf h]
      by_cases hsid : h.shardId = shardId
      · simp only [hsid, Nat.zero_le, and_self, if_true, Nat.sub_zero, hnot, ne_eq,
          not_true_eq_false, or_self, if_false, opening]
      · simp [hsid]

theorem range_flatMap_filter (h : PGconn) (shardId : Int) (g : Option PGconn → List Call)
    (hg : ∀ c, (g c).filter (Call.onConn h) = if c = some h then g c else []) :
    ∀ n, ((List.range n).flatMap (fun i => g (some ⟨shardId, i⟩))).filter (Call.onConn h) =
      if h.shardId = shardId ∧ h.replica < n then g (some h) else [] := by
  intro n
  induction n with
  | zero => simp
  | succ n ih =>
    rw [List.range_succ, List.flatMap_append, List.filter_append, ih]
    simp only [List.flatMap_cons, List.flatMap_nil, List.append_nil, hg]
    by_cases hs : h.shardId = shardId
    · by_cases hn : h.replica = n
      · have hh : (⟨shardId, n⟩ : PGconn) = h := by
          cases h; simp only at hs hn; subst hs hn; rfl
        have h1 : ¬ (h.replica < n) := by omega
        have h2 : h.replica < n + 1 := by omega
        simp [hh, hs, h1, h2]
      · have hh : ¬ ((⟨shardId, n⟩ : PGconn) = h) := by
          intro heq; apply hn; rw [← heq]
        have h1 : h.replica < n + 1 ↔ h.replica < n := by omega
        simp [hh, hs, h1]
    · have hh : ¬ ((⟨shardId, n⟩ : PGconn) = h) := by
        intro heq; apply hs; rw [← heq]
      simp [hh, hs]

theorem entryCalls_fresh (e : CopyConnection)
    (hconn : e.conn = handles e.shardId e.nReplicas) (g : Option PGconn → List Call) :
    entryCalls e g = (List.range e.nReplicas).flatMap (fun i => g (some ⟨e.shardId, i⟩)) := by
  simp only [entryCalls, List.flatMap_def]
  congr 1
  apply List.map_congr_left
  intro i hi
  rw [hconn, handles_getD _ _ _ (List.mem_range.1 hi)]

theorem entryCalls_filter (e : CopyConnection)
    (hconn : e.conn = handles e.shardId e.nReplicas) (h : PGconn)
    (g : Option PGconn → List Call)
    (hg : ∀ c, (g c).filter (Call.onConn h) = if c = some h then g c else []) :
    (entryCalls e g).filter (Call.onConn h) =
      if h.shardId = e.shardId ∧ h.replica < e.nReplicas then g (some h) else [] := by
  rw [entryCalls_fresh e hconn, range_flatMap_filter h e.shardId g hg]

theorem replicateRow_eq_entryCalls (e : CopyConnection) (lineBuf : String) :
    replicateRow e lineBuf = entryCalls e (fun c => [Call.PQputCopyData c lineBuf]) := by
  simp only [replicateRow, entryCalls, List.flatMap_def]
  induction List.range e.nReplicas with
  | nil => rfl
  | cons i rest ih =>
    rw [List.map_cons, List.map_cons, List.flatten_cons, ih]
    rfl

theorem replicateRow_filter (e : CopyConnection) (hfresh : e.fresh) (h : PGconn)
    (lineBuf : String) :
    (replicateRow e lineBuf).filter (Call.onConn h) =
      if h.shardId = e.shardId ∧ h.replica < e.nReplicas then
        [Call.PQputCopyData (some h) lineBuf]
      else [] := by
  rw [replicateRow_eq_entryCalls, entryCalls_filter e hfresh.2 h]
  intro c
  by_cases hc : c = some h
  · simp [hc, Call.onConn]
  · simp [hc, Call.onConn]

theorem getCopyConnection_keys (w : World) (relation : RangeVar) (stmt : CopyStmt)
    (shardId : Int) (tab : List CopyConnection) :
    ∀ k, k ∈ shardKeys (getCopyConnection w relation stmt shardId tab).2.1 ↔
      k ∈ shardKeys tab ∨ k = shardId := by
  intro k
  cases hs : hash_search tab shardId with
  | some e =>
    obtain ⟨hmem, hid⟩ := hash_search_some tab shardId e hs
    rw [getCopyConnection_found w relation stmt shardId tab e hs]
    constructor
    · intro hk; exact Or.inl hk
    · rintro (hk | rfl)
      · exact hk
      · rw [← hid]; exact List.mem_map_of_mem _ hmem
  | none =>
    rcases hres : connectPlacements w (ConstructCopyStatement w relation stmt shardId)
      shardId (w.LoadFinalizedShardPlacementList shardId) 0
      (List.replicate (w.LoadFinalizedShardPlacementList shardId).length none)
      with ⟨conn', calls, err⟩
    simp [getCopyConnection, hs, hres, shardKeys]

theorem opening_eq_nil (w : World) (relation : RangeVar) (stmt : CopyStmt) (h : PGconn)
    (hge : ¬ h.replica < replicaCount w h.shardId) : opening w relation stmt h = [] := by
  have : (w.LoadFinalizedShardPlacementList h.shardId)[h.replica]? = none := by
    rw [List.getElem?_eq_none_iff]
    simpa [replicaCount] using hge
  simp only [opening, this]

theorem copyToShards_ok (w : World) (hok : ∀ c, w.succeeds c = true)
    (relation : RangeVar) (stmt : CopyStmt) (l : List ShardInterval) :
    ∀ (lineBuf : String) (tab : List CopyConnection), registered w tab →
      (copyToShards w relation stmt l lineBuf tab).2.2 = none ∧
      registered w (copyToShards w relation stmt l lineBuf tab).1 ∧
      (∀ k, k ∈ shardKeys (copyToShards w relation stmt l lineBuf tab).1 ↔
        k ∈ shardKeys tab ∨ k ∈ l.map (fun s => s.id)) ∧
      ∀ h : PGconn,
        (copyToShards w relation stmt l lineBuf tab).2.1.filter (Call.onConn h) =
          (if h.shardId ∈ shardKeys tab ∨ h.shardId ∉ l.map (fun s => s.id) then []
            else opening w relation stmt h) ++
          (if h.replica < replicaCount w h.shardId then
            (sentTo h.shardId l lineBuf).map (fun b => Call.PQputCopyData (some h) b)
            else []) := by
  induction l with
  | nil =>
    intro lineBuf tab hreg
    refine ⟨rfl, hreg, fun k => by simp [copyToShards], fun h => ?_⟩
    simp [copyToShards, sentTo]
  | cons s rest ih =>
    intro lineBuf tab hreg
    obtain ⟨hgerr, hgreg, hgmem, hgid, hgf⟩ :=
      getCopyConnection_ok w hok relation stmt s.id tab hreg
    have hgkeys := getCopyConnection_keys w relation stmt s.id tab
    rcases hres : getCopyConnection w relation stmt s.id tab with ⟨e, tab', calls, err⟩
    rw [hres] at hgerr hgreg hgmem hgid hgf hgkeys
    simp only at hgerr hgreg hgmem hgid hgf hgkeys
    subst hgerr
    obtain ⟨iherr, ihreg, ihkeys, ihf⟩ := ih (lineBuf.push (Char.ofNat 10)) tab' hgreg
    rcases hrest : copyToShards w relation stmt rest (lineBuf.push (Char.ofNat 10)) tab'
      with ⟨tab'', later, err'⟩
    rw [hrest] at iherr ihreg ihkeys ihf
    simp only at iherr ihreg ihkeys ihf
    simp only [copyToShards, hres, hrest]
    refine ⟨iherr, ihreg, ?_, fun h => ?_⟩
    · intro k
      rw [ihkeys k, hgkeys k]
      simp only [List.map_cons, List.mem_cons]
      tauto
    · rw [List.filter_append, List.filter_append, hgf h, ihf h,
        replicateRow_filter e (hgreg e hgmem).1 h, hgid, (hgreg e hgmem).2, hgid]
      simp only [sentTo, List.map_cons, List.mem_cons, List.map_append, hgkeys h.shardId]
      generalize s.id = sid
      by_cases hlt : h.replica < replicaCount w h.shardId
      · by_cases hsid : h.shardId = sid
        · subst hsid
          simp [hlt]
        · have hsid' : ¬ sid = h.shardId := fun hh => hsid hh.symm
          simp [hlt, hsid, hsid']
      · have hop := opening_eq_nil w relation stmt h hlt
        by_cases hsid : h.shardId = sid
        · subst hsid
          simp [hlt, hop]
        · simp [hlt, hop, hsid]

theorem sentTo_eq_nil (S : Int) (l : List ShardInterval) :
    ∀ lineBuf, S ∉ l.map (fun s => s.id) → sentTo S l lineBuf = [] := by
  induction l with
  | nil => intro lineBuf _; rfl
  | cons s rest ih =>
    intro lineBuf hS
    simp only [List.map_cons, List.mem_cons, not_or] at hS
    have h1 : ¬ s.id = S := fun hh => hS.1 hh.symm
    simp only [sentTo, h1, if_false, List.nil_append]
    exact ih _ hS.2

theorem copyRows_ok (w : World) (hok : ∀ c, w.succeeds c = true)
    (relation : RangeVar) (stmt : CopyStmt) (rows : List CopyRow) :
    ∀ (tab : List CopyConnection), registered w tab →
      (∀ row ∈ rows, row.columnNulls.getD w.varattno w.beyondNulls = false) →
      (copyRows w relation stmt rows tab).2.2 = none ∧
      registered w (copyRows w relation stmt rows tab).1 ∧
      (∀ k, k ∈ shardKeys (copyRows w relation stmt rows tab).1 ↔
        k ∈ shardKeys tab ∨
          k ∈ rows.flatMap (fun row => (prunedList w row).map (fun s => s.id))) ∧
      ∀ h : PGconn,
        (copyRows w relation stmt rows tab).2.1.filter (Call.onConn h) =
          (if h.shardId ∈ shardKeys tab ∨
              h.shardId ∉ rows.flatMap (fun row => (prunedList w row).map (fun s => s.id))
            then [] else opening w relation stmt h) ++
          (if h.replica < replicaCount w h.shardId then
            (rows.flatMap (fun row => sentTo h.shardId (prunedList w row) row.line)).map
              (fun b => Call.PQputCopyData (some h) b)
            else []) := by
  induction rows with
  | nil =>
    intro tab hreg _
    refine ⟨rfl, hreg, fun k => by simp [copyRows], fun h => ?_⟩
    simp [copyRows]
  | cons row rest ih =>
    intro tab hreg hnull
    have hrow : row.columnNulls.getD w.varattno w.beyondNulls = false :=
      hnull row (List.mem_cons_self _ _)
    obtain ⟨hcerr, hcreg, hckeys, hcf⟩ :=
      copyToShards_ok w hok relation stmt (prunedList w row) row.line tab hreg
    rcases hres : copyToShards w relation stmt (prunedList w row) row.line tab
      with ⟨tab', calls, err⟩
    rw [hres] at hcerr hcreg hckeys hcf
    simp only at hcerr hcreg hckeys hcf
    subst hcerr
    obtain ⟨iherr, ihreg, ihkeys, ihf⟩ :=
      ih tab' hcreg (fun r hr => hnull r (List.mem_cons_of_mem _ hr))
    rcases hrest : copyRows w relation stmt rest tab' with ⟨tab'', later, err'⟩
    rw [hrest] at iherr ihreg ihkeys ihf
    simp only at iherr ihreg ihkeys ihf
    simp only [copyRows, hrow, Bool.false_eq_true, if_false, hres, hrest]
    refine ⟨iherr, ihreg, ?_, fun h => ?_⟩
    · intro k
      rw [ihkeys k, hckeys k]
      simp only [List.flatMap_cons, List.mem_append]
      tauto
    · rw [List.filter_append, hcf h, ihf h]
      simp only [List.flatMap_cons, List.mem_append, List.map_append, hckeys h.shardId]
      by_cases hlt : h.replica < replicaCount w h.shardId
      · by_cases hrowS : h.shardId ∈ (prunedList w row).map (fun s => s.id)
        · simp [hlt, hrowS]
        · have hnil := sentTo_eq_nil h.shardId (prunedList w row) row.line hrowS
          simp [hlt, hrowS, hnil]
      · have hop := opening_eq_nil w relation stmt h hlt
        simp [hlt, hop]

theorem scan_flatMap_filter (h : PGconn) (g : Int → Option PGconn → List Call)
    (hg : ∀ sid c, (g sid c).filter (Call.onConn h) = if c = some h then g sid c else [])
    (scan : List CopyConnection) (hnd : (shardKeys scan).Nodup)
    (hconn : ∀ e ∈ scan, e.conn = handles e.shardId e.nReplicas) :
    (owns scan h → (scan.flatMap (fun e => entryCalls e (g e.shardId))).filter (Call.onConn h) =
      g h.shardId (some h)) ∧
    (¬ owns scan h → (scan.flatMap (fun e => entryCalls e (g e.shardId))).filter (Call.onConn h) =
      []) := by
  induction scan with
  | nil =>
    refine ⟨fun ho => ?_, fun _ => rfl⟩
    obtain ⟨e, he, _⟩ := ho
    simp at he
  | cons e rest ih =>
    simp only [shardKeys, List.map_cons, List.nodup_cons] at hnd
    obtain ⟨ih1, ih2⟩ := ih hnd.2 (fun e' he' => hconn e' (List.mem_cons_of_mem _ he'))
    have hhead := entryCalls_filter e (hconn e (List.mem_cons_self _ _)) h (g e.shardId)
      (hg e.shardId)
    simp only [List.flatMap_cons, List.filter_append, hhead]
    by_cases hsid : h.shardId = e.shardId
    · have hrest : ¬ owns rest h := by
        rintro ⟨e', he', hid, -⟩
        apply hnd.1
        rw [← hsid, ← hid]
        exact List.mem_map_of_mem _ he'
      rw [ih2 hrest, List.append_nil]
      constructor
      · rintro ⟨e', he', hid, hlt⟩
        rcases List.mem_cons.1 he' with rfl | he'
        · simp [hsid, hlt]
        · exact absurd ⟨e', he', hid, hlt⟩ hrest
      · intro hno
        have hlt : ¬ h.replica < e.nReplicas :=
          fun hlt => hno ⟨e, List.mem_cons_self _ _, hsid.symm, hlt⟩
        simp [hlt]
    · simp only [hsid, false_and, if_false, List.nil_append]
      constructor
      · rintro ⟨e', he', hid, hlt⟩
        rcases List.mem_cons.1 he' with rfl | he'
        · exact absurd hid.symm hsid
        · exact ih1 ⟨e', he', hid, hlt⟩
      · intro hno
        exact ih2 (fun ⟨e', he', hid, hlt⟩ => hno ⟨e', List.mem_cons_of_mem _ he', hid, hlt⟩)

theorem prepareReplicas_calls_ok (w : World) (hok : ∀ c, w.succeeds c = true) (rel : String)
    (e : CopyConnection) (idx : List Nat) :
    ∀ (prepared : List Bool) (fs0 : Int),
      (prepareReplicas w rel e idx prepared fs0).2.2 =
        idx.flatMap (fun i => [Call.PQputCopyEnd (e.conn.getD i none) none,
          Call.Prepare (e.conn.getD i none) rel e.shardId]) := by
  induction idx with
  | nil => intro prepared fs0; rfl
  | cons i rest ih =>
    intro prepared fs0
    have ih' := ih (prepared.set i true) fs0
    rcases hres : prepareReplicas w rel e rest (prepared.set i true) fs0 with ⟨p, fs, calls⟩
    rw [hres] at ih'
    simp only [prepareReplicas, hres, hok, if_true, List.flatMap_cons]
    simp only at ih'
    rw [ih']
    rfl

theorem prepareShards_calls_ok (w : World) (hok : ∀ c, w.succeeds c = true) (rel : String)
    (scan : List CopyConnection) (fs0 : Int) (hneg : fs0 < 0) :
    (prepareShards w rel scan fs0).2.2 =
      scan.flatMap (fun e => entryCalls e (fun c =>
        [Call.PQputCopyEnd c none, Call.Prepare c rel e.shardId])) := by
  induction scan with
  | nil => rfl
  | cons e rest ih =>
    have hcalls := prepareReplicas_calls_ok w hok rel e (List.range e.nReplicas) e.prepared fs0
    obtain ⟨hfs, -, -⟩ := prepareReplicas_all w rel e (fun c r s => hok _)
      (List.range e.nReplicas) e.prepared fs0
    rcases hres : prepareReplicas w rel e (List.range e.nReplicas) e.prepared fs0
      with ⟨p, fs, calls⟩
    rw [hres] at hcalls hfs
    simp only at hcalls hfs
    subst hfs
    rcases hrest : prepareShards w rel rest fs with ⟨scan', fs', later⟩
    rw [hrest] at ih
    simp only at ih
    simp only [prepareShards, hneg, if_true, hres, hrest, List.flatMap_cons, hcalls, ih]
    rfl

theorem completeTwoPhaseCommit_calls (rel : String) (scan : List CopyConnection)
    (hall : ∀ e ∈ scan, e.allPrepared) :
    completeTwoPhaseCommit rel scan =
      scan.flatMap (fun e => entryCalls e (fun c =>
        [Call.CommitPrepared c rel e.shardId, Call.PQfinish c])) := by
  simp only [completeTwoPhaseCommit, List.flatMap_def]
  congr 1
  apply List.map_congr_left
  intro e he
  simp only [entryCalls, List.flatMap_def]
  congr 1
  apply List.map_congr_left
  intro i hi
  simp only [completeReplica, hall e he i (List.mem_range.1 hi), if_true]

theorem PgShardCopy_eq_copyFrom (w : World) (stmt : CopyStmt) (relation : RangeVar)
    (hrel : stmt.relation = some relation) (hdist : w.IsDistributedTable = true)
    (hshards : w.LookupShardIntervalList ≠ []) (hfrom : stmt.is_from = true)
    (hbin : w.binary = false) :
    PgShardCopy w stmt = copyFrom w relation stmt := by
  simp [PgShardCopy, hrel, hdist, hshards, hfrom, hbin]

theorem owns_perm (scan tab : List CopyConnection) (hp : scan.Perm tab) (h : PGconn) :
    owns scan h ↔ owns tab h := by
  constructor
  · rintro ⟨e, he, h1, h2⟩; exact ⟨e, hp.mem_iff.1 he, h1, h2⟩
  · rintro ⟨e, he, h1, h2⟩; exact ⟨e, hp.mem_iff.2 he, h1, h2⟩

theorem owns_registered (w : World) (tab : List CopyConnection) (hreg : registered w tab)
    (h : PGconn) :
    owns tab h ↔ h.shardId ∈ shardKeys tab ∧ h.replica < replicaCount w h.shardId := by
  constructor
  · rintro ⟨e, he, h1, h2⟩
    refine ⟨?_, ?_⟩
    · rw [← h1]; exact List.mem_map_of_mem _ he
    · rw [← h1, ← (hreg e he).2]; exact h2
  · rintro ⟨hk, hlt⟩
    simp only [shardKeys, List.mem_map] at hk
    obtain ⟨e, he, h1⟩ := hk
    refine ⟨e, he, h1, ?_⟩
    rw [(hreg e he).2, h1]; exact hlt

/-- The run in which nothing fails, connection by connection.  In a COPY FROM
on a distributed table in which every call succeeds and the null flag that is
read is false for every row, `PgShardCopy` returns true, and the calls made on
the connection for placement `i` of shard `S` are, in this order: the
`ConnectToNode` for the placement, `Begin` and the COPY command for `S`; one
`PQputCopyData` for every time a row is routed to `S`, in the order of the
rows; the end of the copy stream; `Prepare` and `CommitPrepared` with the
relation name and `S`; `PQfinish`.  No call is made on a connection of a shard
no row is routed to.  The scan of the hash table is taken to yield every entry
once. -/
theorem success_run_per_connection (w : World) (copyStatement : CopyStmt)
    (relation : RangeVar)
    (hrel : copyStatement.relation = some relation) (hdist : w.IsDistributedTable = true)
    (hshards : w.LookupShardIntervalList ≠ []) (hfrom : copyStatement.is_from = true)
    (hbin : w.binary = false)
    (hscan : ∀ l, (w.hash_seq l).Perm l)
    (hok : ∀ c, w.succeeds c = true)
    (hnull : ∀ row ∈ w.rows, row.columnNulls.getD w.varattno w.beyondNulls = false) :
    (PgShardCopy w copyStatement).outcome = Outcome.returned true ∧
    ∀ h : PGconn,
      (h.shardId ∈ routedShards w ∧ h.replica < replicaCount w h.shardId →
        (PgShardCopy w copyStatement).trace.filter (Call.onConn h) =
          opening w relation copyStatement h ++
          (rowsSentTo w h.shardId).map (fun b => Call.PQputCopyData (some h) b) ++
          [Call.PQputCopyEnd (some h) none, Call.Prepare (some h) w.get_rel_name h.shardId,
            Call.CommitPrepared (some h) w.get_rel_name h.shardId, Call.PQfinish (some h)]) ∧
      (¬ (h.shardId ∈ routedShards w ∧ h.replica < replicaCount w h.shardId) →
        (PgShardCopy w copyStatement).trace.filter (Call.onConn h) = []) := by
  rw [PgShardCopy_eq_copyFrom w copyStatement relation hrel hdist hshards hfrom hbin]
  have hreg0 : registered w [] := fun e he => by simp at he
  obtain ⟨herr, hreg, hkeys, hf⟩ :=
    copyRows_ok w hok relation copyStatement w.rows [] hreg0 hnull
  obtain ⟨hnd, -, -⟩ := copyRows_count w relation copyStatement w.rows []
    (by simp [shardKeys]) herr
  rcases hrows : copyRows w relation copyStatement w.rows [] with ⟨tab, calls, err⟩
  rw [hrows] at herr hreg hkeys hf hnd
  simp only at herr hreg hkeys hf hnd
  subst herr
  rw [copyFrom_of_ok w relation copyStatement tab calls hrows]
  have hprep : ∀ c r s, w.succeeds (Call.Prepare c r s) = true := fun c r s => hok _
  obtain ⟨hfs, hscan'⟩ := prepareShards_all w w.get_rel_name hprep (w.hash_seq tab) (-1)
    (by decide)
  have hpcalls := prepareShards_calls_ok w hok w.get_rel_name (w.hash_seq tab) (-1) (by decide)
  have hregscan : registered w (w.hash_seq tab) :=
    fun e he => hreg e ((hscan tab).mem_iff.1 he)
  have hall : ∀ e ∈ (prepareShards w w.get_rel_name (w.hash_seq tab) (-1)).1,
      e.allPrepared := by
    intro e he
    rw [hscan', List.mem_map] at he
    obtain ⟨e0, he0, rfl⟩ := he
    exact allPrepared_of_fresh w w.get_rel_name hprep e0 (hregscan e0 he0).1 (-1)
  have hccalls := completeTwoPhaseCommit_calls w.get_rel_name _ hall
  have hndscan : (shardKeys (w.hash_seq tab)).Nodup :=
    ((hscan tab).map _).nodup_iff.2 hnd
  have hkeys' : shardKeys (prepareShards w w.get_rel_name (w.hash_seq tab) (-1)).1 =
      shardKeys (w.hash_seq tab) := by
    rw [hscan']
    simp [shardKeys, List.map_map, Function.comp_def]
  have hconn' : ∀ e ∈ (prepareShards w w.get_rel_name (w.hash_seq tab) (-1)).1,
      e.conn = handles e.shardId e.nReplicas := by
    intro e he
    rw [hscan', List.mem_map] at he
    obtain ⟨e0, he0, rfl⟩ := he
    exact (hregscan e0 he0).1.2
  have howns' : ∀ h, owns (prepareShards w w.get_rel_name (w.hash_seq tab) (-1)).1 h ↔
      owns (w.hash_seq tab) h := by
    intro h
    rw [hscan']
    constructor
    · rintro ⟨e, he, h1, h2⟩
      rw [List.mem_map] at he
      obtain ⟨e0, he0, rfl⟩ := he
      exact ⟨e0, he0, h1, h2⟩
    · rintro ⟨e, he, h1, h2⟩
      exact ⟨_, List.mem_map_of_mem _ he, h1, h2⟩
  have hrouted : ∀ k, k ∈ shardKeys tab ↔ k ∈ routedShards w := by
    intro k
    rw [hkeys k]
    simp [shardKeys, routedShards]
  refine ⟨by simp only [hfs]; rfl, fun h => ?_⟩
  have hownsiff : owns (w.hash_seq tab) h ↔
      (h.shardId ∈ routedShards w ∧ h.replica < replicaCount w h.shardId) := by
    rw [owns_perm _ _ (hscan tab) h, owns_registered w tab hreg h, hrouted]
  obtain ⟨hp1, hp2⟩ := scan_flatMap_filter h
    (fun sid c => [Call.PQputCopyEnd c none, Call.Prepare c w.get_rel_name sid])
    (fun sid c => by by_cases hc : c = some h <;> simp [hc, Call.onConn])
    (w.hash_seq tab) hndscan (fun e he => (hregscan e he).1.2)
  obtain ⟨hc1, hc2⟩ := scan_flatMap_filter h
    (fun sid c => [Call.CommitPrepared c w.get_rel_name sid, Call.PQfinish c])
    (fun sid c => by by_cases hc : c = some h <;> simp [hc, Call.onConn])
    (prepareShards w w.get_rel_name (w.hash_seq tab) (-1)).1 (by rw [hkeys']; exact hndscan)
    hconn'
  simp only [List.filter_append, hf h, hpcalls, hccalls]
  constructor
  · intro hin
    have ho := hownsiff.2 hin
    rw [hp1 ho, hc1 ((howns' h).2 ho)]
    have hnotin : ¬ (h.shardId ∈ shardKeys ([] : List CopyConnection) ∨ h.shardId ∉
        w.rows.flatMap (fun row => (prunedList w row).map (fun s => s.id))) := by
      simp only [shardKeys, List.map_nil, List.not_mem_nil, false_or, not_not]
      exact hin.1
    simp only [hnotin, if_false, hin.2, if_true, rowsSentTo, List.append_assoc,
      List.cons_append, List.nil_append]
  · intro hnot
    have ho : ¬ owns (w.hash_seq tab) h := fun ho => hnot (hownsiff.1 ho)
    rw [hp2 ho, hc2 (fun ho' => ho ((howns' h).1 ho'))]
    by_cases hlt : h.replica < replicaCount w h.shardId
    · have hnr : h.shardId ∉ routedShards w := fun hr => hnot ⟨hr, hlt⟩
      have hnil : (w.rows.flatMap (fun row => sentTo h.shardId (prunedList w row) row.line))
          = [] := by
        rw [List.flatMap_eq_nil_iff]
        intro row hrow
        apply sentTo_eq_nil
        intro hmem
        apply hnr
        simp only [routedShards, List.mem_flatMap]
        exact ⟨row, hrow, hmem⟩
      have hcond : (h.shardId ∈ shardKeys ([] : List CopyConnection) ∨ h.shardId ∉
          w.rows.flatMap (fun row => (prunedList w row).map (fun s => s.id))) := by
        right; exact hnr
      rw [if_pos hcond, hnil]
      simp
    · have hop := opening_eq_nil w relation copyStatement h hlt
      simp [hlt, hop]

/-- The success run on the example, for the first replica of shard 2: the
hypotheses of `success_run_per_connection` hold there, and the calls on the
connection are the opening, the three rows, the end of the stream, `Prepare`,
`CommitPrepared` and `PQfinish`. -/
theorem success_run_per_connection_example :
    (PgShardCopy (exampleWorld fourRanges allSucceed fourRows) copyT).outcome =
      Outcome.returned true ∧
    (PgShardCopy (exampleWorld fourRanges allSucceed fourRows) copyT).trace.filter
        (Call.onConn ⟨2, 0⟩) =
      [Call.ConnectToNode "a" 5432 ⟨2, 0⟩, Call.Begin (some ⟨2, 0⟩),
       Call.PgShardExecute (some ⟨2, 0⟩) "COPY t_2 FROM STDIN",
       Call.PQputCopyData (some ⟨2, 0⟩) "1,1\n", Call.PQputCopyData (some ⟨2, 0⟩) "2,2\n",
       Call.PQputCopyData (some ⟨2, 0⟩) "3,3\n",
       Call.PQputCopyEnd (some ⟨2, 0⟩) none, Call.Prepare (some ⟨2, 0⟩) "t" 2,
       Call.CommitPrepared (some ⟨2, 0⟩) "t" 2, Call.PQfinish (some ⟨2, 0⟩)] := by
  have h := success_run_per_connection (exampleWorld fourRanges allSucceed fourRows) copyT
    ⟨none, "t"⟩ rfl rfl (by decide) rfl rfl (fun l => List.Perm.refl l) (fun _ => rfl)
    (by decide)
  refine ⟨h.1, ?_⟩
  rw [(h.2 ⟨2, 0⟩).1 (by decide)]
  decide

theorem push_eq_append (s : String) (c : Char) : s.push c = s ++ String.singleton c :=
  String.ext (by simp [String.singleton])

theorem intercalate_go_append (p acc sep : String) (l : List String) :
    String.intercalate.go (p ++ acc) sep l = p ++ String.intercalate.go acc sep l := by
  induction l generalizing acc with
  | nil => rfl
  | cons a rest ih =>
    simp only [String.intercalate.go]
    rw [String.append_assoc p acc sep, String.append_assoc p (acc ++ sep) a, ih]

theorem appendColumns_comma (l : List String) :
    ∀ buf : String, appendColumns l ',' buf = String.intercalate.go buf "," l := by
  induction l with
  | nil => intro buf; rfl
  | cons a rest ih =>
    intro buf
    simp only [appendColumns, String.intercalate.go]
    rw [ih, push_eq_append]
    rfl

theorem appendColumns_paren (l : List String) (hl : l ≠ []) (buf : String) :
    (appendColumns l '(' buf).push ')' = buf ++ ("(" ++ ",".intercalate l ++ ")") := by
  cases l with
  | nil => exact absurd rfl hl
  | cons a rest =>
    simp only [appendColumns, String.intercalate]
    rw [appendColumns_comma, push_eq_append, push_eq_append, String.append_assoc buf,
      intercalate_go_append, intercalate_go_append]
    simp only [String.append_assoc]
    rfl

/-- The text up to and including the column list, as `ConstructCopyStatement`
builds it. -/
theorem copyStatement_columns (w : World) (relation : RangeVar) (copyStatement : CopyStmt)
    (shardId : Int) :
    (if copyStatement.attlist ≠ [] then
        (appendColumns copyStatement.attlist '('
          ("COPY " ++ w.quote_qualified_identifier relation.schemaname relation.relname ++
            "_" ++ toString shardId ++ " ")).push ')'
      else "COPY " ++ w.quote_qualified_identifier relation.schemaname relation.relname ++
        "_" ++ toString shardId ++ " ") =
      "COPY " ++ w.quote_qualified_identifier relation.schemaname relation.relname ++ "_" ++
        toString shardId ++ " " ++
        (if copyStatement.attlist ≠ [] then "(" ++ ",".intercalate copyStatement.attlist ++ ")"
          else "") := by
  by_cases h : copyStatement.attlist = []
  · simp [h]
  · simp only [ne_eq, h, not_false_eq_true, if_true]
    exact appendColumns_paren _ h _

/-- Without options the text `ConstructCopyStatement` returns is the one the
specification describes: the table name suffixed with the shard id, the column
names in their order inside one pair of parentheses, and `FROM STDIN`. -/
theorem ConstructCopyStatement_without_options (w : World) (relation : RangeVar)
    (copyStatement : CopyStmt) (shardId : Int) (hopt : copyStatement.options = []) :
    ConstructCopyStatement w relation copyStatement shardId =
      describedCopyStatement w relation copyStatement shardId := by
  have hcols := copyStatement_columns w relation copyStatement shardId
  simp only [ConstructCopyStatement, describedCopyStatement, hopt, ne_eq, not_true_eq_false,
    if_false, String.append_empty]
  simp only [ne_eq] at hcols
  rw [hcols]

theorem appendOptions_extends (l : List DefElem) :
    ∀ (sep : Char) (buf : String), ∃ t, appendOptions l sep buf = buf ++ t := by
  induction l with
  | nil => intro sep buf; exact ⟨"", by simp [appendOptions]⟩
  | cons d rest ih =>
    intro sep buf
    obtain ⟨t, ht⟩ := ih ',' (buf ++ toString sep.toNat ++ d.defname ++ " " ++ d.arg)
    refine ⟨toString sep.toNat ++ (d.defname ++ (" " ++ (d.arg ++ t))), ?_⟩
    simp only [appendOptions]
    rw [ht]
    simp only [String.append_assoc]

/-- With at least one option the text `ConstructCopyStatement` returns is never
the one the specification describes: after ` WITH ` comes the digit 4 of the
number 40, not an opening parenthesis. -/
theorem ConstructCopyStatement_with_options (w : World) (relation : RangeVar)
    (copyStatement : CopyStmt) (shardId : Int) (hopt : copyStatement.options ≠ []) :
    ConstructCopyStatement w relation copyStatement shardId ≠
      describedCopyStatement w relation copyStatement shardId := by
  have hcols := copyStatement_columns w relation copyStatement shardId
  simp only [ne_eq] at hcols
  obtain ⟨d, rest, hd⟩ := List.exists_cons_of_ne_nil hopt
  obtain ⟨t, ht⟩ := appendOptions_extends rest ','
    ((if copyStatement.attlist = [] then
        "COPY " ++ w.quote_qualified_identifier relation.schemaname relation.relname ++ "_" ++
          toString shardId ++ " "
      else (appendColumns copyStatement.attlist '('
        ("COPY " ++ w.quote_qualified_identifier relation.schemaname relation.relname ++ "_" ++
          toString shardId ++ " ")).push ')') ++ "FROM STDIN" ++ " WITH " ++
      toString ('('.toNat) ++ d.defname ++ " " ++ d.arg)
  intro heq
  simp only [ConstructCopyStatement, describedCopyStatement, hd, ne_eq, List.cons_ne_nil,
    not_false_eq_true, if_true, appendOptions, ite_not] at heq ht
  rw [ht] at heq
  have hdata := congrArg String.data heq
  have h40 : (toString ('('.toNat)).data = ['4', '0'] := by decide
  have hwith : (" WITH (" : String).data = (" WITH " : String).data ++ ['('] := by decide
  simp only [ite_not] at hcols
  rw [hcols] at hdata
  simp only [String.data_append, String.data_push, List.append_assoc, h40, hwith] at hdata
  have h1 := List.append_cancel_left hdata
  have h2 := List.append_cancel_left h1
  have h3 := List.append_cancel_left h2
  have h4 := List.append_cancel_left h3
  have h5 := List.append_cancel_left h4
  have h6 := List.append_cancel_left h5
  have h7 := List.append_cancel_left h6
  simp at h7

/-- The run of the example with three rows for shard 2 and one row for shard 5
when every call succeeds: each replica of shard 2 is opened, receives the three
rows, is prepared, committed and closed; each replica of shard 5 the same with
its one row; no other connection is opened and `PgShardCopy` returns true. -/
theorem two_shards_success_run :
    PgShardCopy (exampleWorld fourRanges allSucceed fourRows) copyT =
      { trace :=
          [Call.LockShardDistributionMetadata 2, Call.LockShardData 2,
           Call.LoadFinalizedShardPlacementList 2,
           Call.ConnectToNode "a" 5432 ⟨2, 0⟩, Call.Begin (some ⟨2, 0⟩),
           Call.PgShardExecute (some ⟨2, 0⟩) "COPY t_2 FROM STDIN",
           Call.ConnectToNode "b" 5432 ⟨2, 1⟩, Call.Begin (some ⟨2, 1⟩),
           Call.PgShardExecute (some ⟨2, 1⟩) "COPY t_2 FROM STDIN",
           Call.PQputCopyData (some ⟨2, 0⟩) "1,1\n", Call.PQputCopyData (some ⟨2, 1⟩) "1,1\n",
           Call.PQputCopyData (some ⟨2, 0⟩) "2,2\n", Call.PQputCopyData (some ⟨2, 1⟩) "2,2\n",
           Call.PQputCopyData (some ⟨2, 0⟩) "3,3\n", Call.PQputCopyData (some ⟨2, 1⟩) "3,3\n",
           Call.LockShardDistributionMetadata 5, Call.LockShardData 5,
           Call.LoadFinalizedShardPlacementList 5,
           Call.ConnectToNode "a" 5432 ⟨5, 0⟩, Call.Begin (some ⟨5, 0⟩),
           Call.PgShardExecute (some ⟨5, 0⟩) "COPY t_5 FROM STDIN",
           Call.ConnectToNode "b" 5432 ⟨5, 1⟩, Call.Begin (some ⟨5, 1⟩),
           Call.PgShardExecute (some ⟨5, 1⟩) "COPY t_5 FROM STDIN",
           Call.PQputCopyData (some ⟨5, 0⟩) "31,31\n",
           Call.PQputCopyData (some ⟨5, 1⟩) "31,31\n",
           Call.PQputCopyEnd (some ⟨2, 0⟩) none, Call.Prepare (some ⟨2, 0⟩) "t" 2,
           Call.PQputCopyEnd (some ⟨2, 1⟩) none, Call.Prepare (some ⟨2, 1⟩) "t" 2,
           Call.PQputCopyEnd (some ⟨5, 0⟩) none, Call.Prepare (some ⟨5, 0⟩) "t" 5,
           Call.PQputCopyEnd (some ⟨5, 1⟩) none, Call.Prepare (some ⟨5, 1⟩) "t" 5,
           Call.CommitPrepared (some ⟨2, 0⟩) "t" 2, Call.PQfinish (some ⟨2, 0⟩),
           Call.CommitPrepared (some ⟨2, 1⟩) "t" 2, Call.PQfinish (some ⟨2, 1⟩),
           Call.CommitPrepared (some ⟨5, 0⟩) "t" 5, Call.PQfinish (some ⟨5, 0⟩),
           Call.CommitPrepared (some ⟨5, 1⟩) "t" 5, Call.PQfinish (some ⟨5, 1⟩)],
        outcome := Outcome.returned true } := by
  decide

/-! ## Theorems: the claims -/

/-- C1: a `CommitPrepared` is issued although a `Prepare` was refused.  Shards 2
and 5 have two replicas each and the second replica of shard 5 refuses
`Prepare`: the three connections prepared before it are sent `CommitPrepared`,
and the operation ends with the error "COPY failed for shard 5". -/
theorem commitPrepared_issued_after_refused_prepare :
    allBut (Call.Prepare (some ⟨5, 1⟩) "t" 5) (Call.Prepare (some ⟨5, 1⟩) "t" 5) = false ∧
    Call.Prepare (some ⟨5, 1⟩) "t" 5 ∈
      (PgShardCopy (exampleWorld fourRanges (allBut (Call.Prepare (some ⟨5, 1⟩) "t" 5))
        fourRows) copyT).trace ∧
    (PgShardCopy (exampleWorld fourRanges (allBut (Call.Prepare (some ⟨5, 1⟩) "t" 5))
        fourRows) copyT).trace.filter Call.isCommitPrepared =
      [Call.CommitPrepared (some ⟨2, 0⟩) "t" 2, Call.CommitPrepared (some ⟨2, 1⟩) "t" 2,
        Call.CommitPrepared (some ⟨5, 0⟩) "t" 5] ∧
    (PgShardCopy (exampleWorld fourRanges (allBut (Call.Prepare (some ⟨5, 1⟩) "t" 5))
        fourRows) copyT).outcome = Outcome.raised (CopyError.copyFailedForShard 5) := by
  decide

/-- C2: the calls that follow the refused `Prepare` of the second replica of
shard 5.  The prepared connections (both replicas of shard 2, the first
replica of shard 5) are sent `CommitPrepared`, not `RollbackPrepared`; the
connection that is not prepared has its copy stream ended with the abort
message and is sent `Rollback`; every connection is closed. -/
theorem refused_prepare_commits_prepared_replicas :
    (PgShardCopy (exampleWorld fourRanges (allBut (Call.Prepare (some ⟨5, 1⟩) "t" 5))
        fourRows) copyT).trace.drop 34 =
      [Call.CommitPrepared (some ⟨2, 0⟩) "t" 2, Call.PQfinish (some ⟨2, 0⟩),
       Call.CommitPrepared (some ⟨2, 1⟩) "t" 2, Call.PQfinish (some ⟨2, 1⟩),
       Call.CommitPrepared (some ⟨5, 0⟩) "t" 5, Call.PQfinish (some ⟨5, 0⟩),
       Call.PQputCopyEnd (some ⟨5, 1⟩) (some "Aborted because of failure on some shard"),
       Call.Rollback (some ⟨5, 1⟩), Call.PQfinish (some ⟨5, 1⟩)] ∧
    (PgShardCopy (exampleWorld fourRanges (allBut (Call.Prepare (some ⟨5, 1⟩) "t" 5))
        fourRows) copyT).trace.getD 33 (Call.DoCopy "") = Call.Prepare (some ⟨5, 1⟩) "t" 5 ∧
    (∀ c ∈ (PgShardCopy (exampleWorld fourRanges (allBut (Call.Prepare (some ⟨5, 1⟩) "t" 5))
        fourRows) copyT).trace,
      ∀ conn shardId, c ≠ Call.RollbackPrepared conn "t" shardId) := by
  refine ⟨by decide, by decide, ?_⟩
  intro c hc conn shardId heq
  subst heq
  revert hc
  have hnone : ∀ c ∈ (PgShardCopy (exampleWorld fourRanges
      (allBut (Call.Prepare (some ⟨5, 1⟩) "t" 5)) fourRows) copyT).trace,
      (match c with | Call.RollbackPrepared _ _ _ => false | _ => true) = true := by
    decide
  intro hc
  exact Bool.noConfusion (hnone _ hc)

/-- C3: a row whose partition column `a` is null and whose column `b` is 31
raises no error.  The null flag that is read is the one of `b`; the row is
routed by the value of `b` to shard 5, sent to both replicas and committed, and
`PgShardCopy` returns true. -/
theorem null_partition_key_row_is_copied :
    PgShardCopy (exampleWorld fourRanges allSucceed [⟨[0, 31], [true, false], ",31"⟩]) copyT =
      { trace :=
          [Call.LockShardDistributionMetadata 5, Call.LockShardData 5,
           Call.LoadFinalizedShardPlacementList 5,
           Call.ConnectToNode "a" 5432 ⟨5, 0⟩, Call.Begin (some ⟨5, 0⟩),
           Call.PgShardExecute (some ⟨5, 0⟩) "COPY t_5 FROM STDIN",
           Call.ConnectToNode "b" 5432 ⟨5, 1⟩, Call.Begin (some ⟨5, 1⟩),
           Call.PgShardExecute (some ⟨5, 1⟩) "COPY t_5 FROM STDIN",
           Call.PQputCopyData (some ⟨5, 0⟩) ",31\n", Call.PQputCopyData (some ⟨5, 1⟩) ",31\n",
           Call.PQputCopyEnd (some ⟨5, 0⟩) none, Call.Prepare (some ⟨5, 0⟩) "t" 5,
           Call.PQputCopyEnd (some ⟨5, 1⟩) none, Call.Prepare (some ⟨5, 1⟩) "t" 5,
           Call.CommitPrepared (some ⟨5, 0⟩) "t" 5, Call.PQfinish (some ⟨5, 0⟩),
           Call.CommitPrepared (some ⟨5, 1⟩) "t" 5, Call.PQfinish (some ⟨5, 1⟩)],
        outcome := Outcome.returned true } := by
  decide

/-- C4: the row `(a, b) = (1, 31)` has the partition value 1, which the router
maps to shard 2, but the constant handed to the router is 31, the value of
`b`: the row is sent to the replicas of shard 5 and to no replica of shard 2. -/
theorem row_routed_by_following_column :
    (pruneByRange 1 fourRanges).map (fun s => s.id) = [2] ∧
    (prunedList (exampleWorld fourRanges allSucceed [⟨[1, 31], [false, false], "1,31"⟩])
        ⟨[1, 31], [false, false], "1,31"⟩).map (fun s => s.id) = [5] ∧
    (PgShardCopy (exampleWorld fourRanges allSucceed [⟨[1, 31], [false, false], "1,31"⟩])
        copyT).trace.filter Call.isPutCopyData =
      [Call.PQputCopyData (some ⟨5, 0⟩) "1,31\n", Call.PQputCopyData (some ⟨5, 1⟩) "1,31\n"] := by
  decide

/-- C5: the lookup in the shard to connection table is idempotent.  In every
COPY FROM run whose row loop ends without an error (the run returns true or
fails in the prepare phase), the number of `ConnectToNode` calls is the sum,
over the distinct shard ids the rows are routed to, of the number of
placements of the shard; when all rows go to one shard it is the number of
placements of that shard, whatever the number of rows.  A lookup of a shard
that has an entry returns that entry, makes no call (no connection is opened,
the placement list is not loaded again) and leaves the table as it is. -/
theorem connections_opened_once_per_shard (w : World) (copyStatement : CopyStmt)
    (hfrom : copyStatement.is_from = true)
    (hout : (PgShardCopy w copyStatement).outcome.pastRowLoop = true) :
    connectCount (PgShardCopy w copyStatement).trace =
      ∑ s ∈ (routedShards w).toFinset, replicaCount w s ∧
    (∀ shardId, w.rows ≠ [] →
      (∀ row ∈ w.rows, (prunedList w row).map (fun s => s.id) = [shardId]) →
      connectCount (PgShardCopy w copyStatement).trace = replicaCount w shardId) ∧
    (∀ (relation : RangeVar) (shardToConn : List CopyConnection) (shardId : Int)
        (copyConn : CopyConnection),
      hash_search shardToConn shardId = some copyConn →
      getCopyConnection w relation copyStatement shardId shardToConn =
        (copyConn, shardToConn, [], none)) := by
  have hmain : connectCount (PgShardCopy w copyStatement).trace =
      ∑ s ∈ (routedShards w).toFinset, replicaCount w s := by
    obtain ⟨relation, tab, calls, hrows, heq⟩ :=
      PgShardCopy_pastRowLoop w copyStatement hfrom hout
    rw [heq, copyFrom_of_ok w relation copyStatement tab calls hrows]
    have hcount := copyRows_count w relation copyStatement w.rows [] (by simp [shardKeys])
      (by rw [hrows])
    rw [hrows] at hcount
    obtain ⟨hnd, hmem, hsum⟩ := hcount
    simp only at hnd hmem hsum
    have hprep : connectCount (prepareShards w w.get_rel_name (w.hash_seq tab) (-1)).2.2 = 0 :=
      connectCount_eq_zero _ (fun c hc =>
        isConnect_of_inPrepareLoop c (prepareShards_inPrepareLoop _ _ _ _ c hc))
    have hcomp : connectCount (completeTwoPhaseCommit w.get_rel_name
        (prepareShards w w.get_rel_name (w.hash_seq tab) (-1)).1) = 0 :=
      connectCount_eq_zero _ (fun c hc =>
        isConnect_of_inCompletion c (completeTwoPhaseCommit_inCompletion _ _ c hc))
    simp only [connectCount_append, hprep, hcomp, Nat.add_zero]
    have hfin : (routedShards w).toFinset = (shardKeys tab).toFinset := by
      ext k
      rw [List.mem_toFinset, List.mem_toFinset, hmem k]
      simp [routedShards, shardKeys]
    rw [hfin, List.sum_toFinset _ hnd]
    simp only [sumReplicas, shardKeys, List.map_nil, List.sum_nil, Nat.add_zero] at hsum
    simpa [shardKeys] using hsum
  refine ⟨hmain, ?_, fun relation tab shardId e h =>
    getCopyConnection_found w relation copyStatement shardId tab e h⟩
  intro shardId hne hall
  have hone : (routedShards w).toFinset = {shardId} := by
    ext k
    simp only [List.mem_toFinset, routedShards, List.mem_flatMap, Finset.mem_singleton]
    constructor
    · rintro ⟨row, hrow, hk⟩
      rw [hall row hrow] at hk
      simpa using hk
    · rintro rfl
      obtain ⟨row, hrow⟩ := List.exists_mem_of_ne_nil _ hne
      exact ⟨row, hrow, by rw [hall row hrow]; simp⟩
  rw [hmain, hone, Finset.sum_singleton]

/-- C5, on an example: four rows, three for shard 2 and one for shard 5, two
placements each. -/
theorem connections_opened_once_per_shard_witness :
    copyT.is_from = true ∧
    (PgShardCopy (exampleWorld fourRanges allSucceed fourRows) copyT).outcome.pastRowLoop
      = true ∧
    (connectCount (PgShardCopy (exampleWorld fourRanges allSucceed fourRows) copyT).trace =
      ∑ s ∈ (routedShards (exampleWorld fourRanges allSucceed fourRows)).toFinset,
        replicaCount (exampleWorld fourRanges allSucceed fourRows) s ∧
    (∀ shardId, (exampleWorld fourRanges allSucceed fourRows).rows ≠ [] →
      (∀ row ∈ (exampleWorld fourRanges allSucceed fourRows).rows,
        (prunedList (exampleWorld fourRanges allSucceed fourRows) row).map (fun s => s.id)
          = [shardId]) →
      connectCount (PgShardCopy (exampleWorld fourRanges allSucceed fourRows) copyT).trace =
        replicaCount (exampleWorld fourRanges allSucceed fourRows) shardId) ∧
    (∀ (relation : RangeVar) (shardToConn : List CopyConnection) (shardId : Int)
        (copyConn : CopyConnection),
      hash_search shardToConn shardId = some copyConn →
      getCopyConnection (exampleWorld fourRanges allSucceed fourRows) relation copyT shardId
        shardToConn = (copyConn, shardToConn, [], none))) :=
  ⟨by decide, by decide,
    connections_opened_once_per_shard (exampleWorld fourRanges allSucceed fourRows) copyT
      (by decide) (by decide)⟩

/-- C6: a row that two shards own is sent to the second shard with two
terminators.  With the ranges of shards 2 and 5 overlapping, the line `7,7` goes
to the replicas of shard 2 as `7,7\n` and to the replicas of shard 5 as
`7,7\n\n`. -/
theorem second_shard_receives_two_terminators :
    (prunedList (exampleWorld overlappingRanges allSucceed [rowOf 7 "7,7"])
        (rowOf 7 "7,7")).map (fun s => s.id) = [2, 5] ∧
    (PgShardCopy (exampleWorld overlappingRanges allSucceed [rowOf 7 "7,7"])
        copyT).trace.filter Call.isPutCopyData =
      [Call.PQputCopyData (some ⟨2, 0⟩) "7,7\n", Call.PQputCopyData (some ⟨2, 1⟩) "7,7\n",
       Call.PQputCopyData (some ⟨5, 0⟩) "7,7\n\n", Call.PQputCopyData (some ⟨5, 1⟩) "7,7\n\n"] := by
  decide

/-- C7: a run in which every call succeeds and no row has a null partition
value can still end with an error.  The row `(a, b) = (1, null)` has the
partition value 1, yet the null flag of `b` is the one that is read:
`PgShardCopy` raises the null value error and opens no connection. -/
theorem null_in_following_column_raises :
    (⟨[1, 0], [false, true], "1,"⟩ : CopyRow).columnNulls.getD 0 false = false ∧
    PgShardCopy (exampleWorld fourRanges allSucceed [⟨[1, 0], [false, true], "1,"⟩]) copyT =
      { trace := [], outcome := Outcome.raised CopyError.nullPartitionColumn } := by
  decide

/-- C8, as stated, fails: the first `PQputCopyData` of the run reports a
failure, yet the rows that follow are read and sent, every connection is
prepared and committed, and `PgShardCopy` returns true. -/
theorem failed_send_does_not_stop_copy :
    allBut (Call.PQputCopyData (some ⟨2, 0⟩) "1,1\n")
      (Call.PQputCopyData (some ⟨2, 0⟩) "1,1\n") = false ∧
    (PgShardCopy (exampleWorld fourRanges
        (allBut (Call.PQputCopyData (some ⟨2, 0⟩) "1,1\n")) fourRows) copyT).trace.filter
        Call.isPutCopyData =
      [Call.PQputCopyData (some ⟨2, 0⟩) "1,1\n", Call.PQputCopyData (some ⟨2, 1⟩) "1,1\n",
       Call.PQputCopyData (some ⟨2, 0⟩) "2,2\n", Call.PQputCopyData (some ⟨2, 1⟩) "2,2\n",
       Call.PQputCopyData (some ⟨2, 0⟩) "3,3\n", Call.PQputCopyData (some ⟨2, 1⟩) "3,3\n",
       Call.PQputCopyData (some ⟨5, 0⟩) "31,31\n",
       Call.PQputCopyData (some ⟨5, 1⟩) "31,31\n"] ∧
    (PgShardCopy (exampleWorld fourRanges
        (allBut (Call.PQputCopyData (some ⟨2, 0⟩) "1,1\n")) fourRows) copyT).trace.filter
        Call.isCommitPrepared =
      [Call.CommitPrepared (some ⟨2, 0⟩) "t" 2, Call.CommitPrepared (some ⟨2, 1⟩) "t" 2,
       Call.CommitPrepared (some ⟨5, 0⟩) "t" 5, Call.CommitPrepared (some ⟨5, 1⟩) "t" 5] ∧
    (PgShardCopy (exampleWorld fourRanges
        (allBut (Call.PQputCopyData (some ⟨2, 0⟩) "1,1\n")) fourRows) copyT).outcome =
      Outcome.returned true := by
  decide

/-- C8, amended: what `PQputCopyData` reports is not looked at.  Whatever it
reports for whichever connection and buffer, the calls `PgShardCopy` makes and
the way it ends are the same; a failed send stops nothing. -/
theorem PQputCopyData_result_is_ignored (w : World)
    (put : Option PGconn → String → Bool) (copyStatement : CopyStmt) :
    PgShardCopy (w.withPut put) copyStatement = PgShardCopy w copyStatement :=
  PgShardCopy_withPut w put copyStatement

/-- C9, as stated, fails: every `Prepare` succeeds and the `CommitPrepared` on
the first replica of shard 5 fails; the other connections are committed, and
`PgShardCopy` returns true, the same as when nothing fails. -/
theorem failed_commit_returns_true :
    allBut (Call.CommitPrepared (some ⟨5, 0⟩) "t" 5)
      (Call.CommitPrepared (some ⟨5, 0⟩) "t" 5) = false ∧
    (PgShardCopy (exampleWorld fourRanges
        (allBut (Call.CommitPrepared (some ⟨5, 0⟩) "t" 5)) fourRows) copyT).trace.filter
        Call.isCommitPrepared =
      [Call.CommitPrepared (some ⟨2, 0⟩) "t" 2, Call.CommitPrepared (some ⟨2, 1⟩) "t" 2,
       Call.CommitPrepared (some ⟨5, 0⟩) "t" 5, Call.CommitPrepared (some ⟨5, 1⟩) "t" 5] ∧
    PgShardCopy (exampleWorld fourRanges
        (allBut (Call.CommitPrepared (some ⟨5, 0⟩) "t" 5)) fourRows) copyT =
      PgShardCopy (exampleWorld fourRanges allSucceed fourRows) copyT ∧
    (PgShardCopy (exampleWorld fourRanges
        (allBut (Call.CommitPrepared (some ⟨5, 0⟩) "t" 5)) fourRows) copyT).outcome =
      Outcome.returned true := by
  decide

/-- C9, amended: if every `Prepare` succeeds and a `CommitPrepared` that was
issued fails, then every connection that was opened is still sent
`CommitPrepared` with the relation name and its shard id, no connection is sent
`Rollback` or `RollbackPrepared`, and `PgShardCopy` returns true: the failure is
not recorded.  The scan of the hash table is taken to yield every entry once. -/
theorem commit_failure_is_not_reported (w : World) (copyStatement : CopyStmt)
    (conn : Option PGconn) (relationName : String) (S : Int)
    (hscan : ∀ l, (w.hash_seq l).Perm l)
    (hprep : ∀ c r s, w.succeeds (Call.Prepare c r s) = true)
    (hissued : Call.CommitPrepared conn relationName S ∈ (PgShardCopy w copyStatement).trace)
    (_hfail : w.succeeds (Call.CommitPrepared conn relationName S) = false) :
    (∀ node port handle,
      Call.ConnectToNode node port handle ∈ (PgShardCopy w copyStatement).trace →
      Call.CommitPrepared (some handle) w.get_rel_name handle.shardId ∈
        (PgShardCopy w copyStatement).trace) ∧
    (∀ c ∈ (PgShardCopy w copyStatement).trace, c.isRollback = false) ∧
    (PgShardCopy w copyStatement).outcome = Outcome.returned true := by
  obtain ⟨relation, tab, calls, hrows, heq⟩ :=
    copyRows_ok_of_commitPrepared w copyStatement _ hissued rfl
  rw [heq, copyFrom_of_ok w relation copyStatement tab calls hrows]
  have hinv := copyRows_inv w relation copyStatement w.rows [] (by simp) (by rw [hrows])
  rw [hrows] at hinv
  obtain ⟨hfresh, -, hown⟩ := hinv
  simp only at hfresh hown
  obtain ⟨hfs, hscan'⟩ := prepareShards_all w w.get_rel_name hprep (w.hash_seq tab) (-1)
    (by decide)
  have hall : ∀ e ∈ (prepareShards w w.get_rel_name (w.hash_seq tab) (-1)).1,
      e.allPrepared := by
    intro e he
    rw [hscan', List.mem_map] at he
    obtain ⟨e0, he0, rfl⟩ := he
    exact allPrepared_of_fresh w w.get_rel_name hprep e0
      (hfresh e0 ((hscan tab).mem_iff.1 he0)) (-1)
  obtain ⟨hnoroll, hcommit⟩ := completeTwoPhaseCommit_allPrepared w.get_rel_name _ hall
  refine ⟨?_, ?_, ?_⟩
  · intro node port handle hc
    simp only [List.append_assoc] at hc ⊢
    rcases List.mem_append.1 hc with hc | hc
    · obtain ⟨e, he, hid, hlt⟩ := hown node port handle hc
      apply List.mem_append_right
      apply List.mem_append_right
      have hmem : ({ e with prepared := (prepareReplicas w w.get_rel_name e
          (List.range e.nReplicas) e.prepared (-1)).1 } : CopyConnection) ∈
          (prepareShards w w.get_rel_name (w.hash_seq tab) (-1)).1 := by
        rw [hscan']
        exact List.mem_map_of_mem _ ((hscan tab).mem_iff.2 he)
      have := hcommit _ hmem handle.replica hlt
      simp only at this
      rw [(hfresh e he).2, handles_getD _ _ _ hlt, hid] at this
      exact this
    · have := isConnect_of_mem_prepare_completion w w.get_rel_name _ _ _ _ hc
      exact Bool.noConfusion this
  · intro c hc
    simp only [List.mem_append] at hc
    rcases hc with (hc | hc) | hc
    · exact isRollback_of_inRowLoop c
        (copyRows_inRowLoop w relation copyStatement w.rows [] c (by rw [hrows]; exact hc))
    · exact isRollback_of_inPrepareLoop c (prepareShards_inPrepareLoop _ _ _ _ c hc)
    · exact hnoroll c hc
  · simp only [hfs]
    rfl

/-- C9, amended, on the example: the `CommitPrepared` on the first replica of
shard 5 fails. -/
theorem commit_failure_is_not_reported_witness :
    (∀ l, ((exampleWorld fourRanges (allBut (Call.CommitPrepared (some ⟨5, 0⟩) "t" 5))
      fourRows).hash_seq l).Perm l) ∧
    (∀ c r s, (exampleWorld fourRanges (allBut (Call.CommitPrepared (some ⟨5, 0⟩) "t" 5))
      fourRows).succeeds (Call.Prepare c r s) = true) ∧
    Call.CommitPrepared (some ⟨5, 0⟩) "t" 5 ∈
      (PgShardCopy (exampleWorld fourRanges (allBut (Call.CommitPrepared (some ⟨5, 0⟩) "t" 5))
        fourRows) copyT).trace ∧
    (exampleWorld fourRanges (allBut (Call.CommitPrepared (some ⟨5, 0⟩) "t" 5))
      fourRows).succeeds (Call.CommitPrepared (some ⟨5, 0⟩) "t" 5) = false ∧
    ((∀ node port handle,
      Call.ConnectToNode node port handle ∈
        (PgShardCopy (exampleWorld fourRanges (allBut (Call.CommitPrepared (some ⟨5, 0⟩) "t" 5))
          fourRows) copyT).trace →
      Call.CommitPrepared (some handle)
          (exampleWorld fourRanges (allBut (Call.CommitPrepared (some ⟨5, 0⟩) "t" 5))
            fourRows).get_rel_name handle.shardId ∈
        (PgShardCopy (exampleWorld fourRanges (allBut (Call.CommitPrepared (some ⟨5, 0⟩) "t" 5))
          fourRows) copyT).trace) ∧
    (∀ c ∈ (PgShardCopy (exampleWorld fourRanges
        (allBut (Call.CommitPrepared (some ⟨5, 0⟩) "t" 5)) fourRows) copyT).trace,
      c.isRollback = false) ∧
    (PgShardCopy (exampleWorld fourRanges (allBut (Call.CommitPrepared (some ⟨5, 0⟩) "t" 5))
      fourRows) copyT).outcome = Outcome.returned true) :=
  ⟨fun l => List.Perm.refl l, fun _ _ _ => rfl, by decide, by decide,
    commit_failure_is_not_reported
      (exampleWorld fourRanges (allBut (Call.CommitPrepared (some ⟨5, 0⟩) "t" 5)) fourRows)
      copyT (some ⟨5, 0⟩) "t" 5 (fun l => List.Perm.refl l) (fun _ _ _ => rfl)
      (by decide) (by decide)⟩

/-- C10, as stated, fails for a negative shard id: the `Prepare` on the first
replica of shard -3 is refused, yet `Prepare` is then issued on both replicas
of shard 5, which are committed, and `PgShardCopy` returns true without an
error. -/
theorem refused_prepare_on_negative_shard_goes_unnoticed :
    allBut (Call.Prepare (some ⟨-3, 0⟩) "t" (-3)) (Call.Prepare (some ⟨-3, 0⟩) "t" (-3))
      = false ∧
    prepareCalls (PgShardCopy (exampleWorld negativeIdRanges
        (allBut (Call.Prepare (some ⟨-3, 0⟩) "t" (-3)))
        [rowOf 1 "1,1", rowOf 31 "31,31"]) copyT).trace =
      [Call.Prepare (some ⟨-3, 0⟩) "t" (-3), Call.Prepare (some ⟨5, 0⟩) "t" 5,
       Call.Prepare (some ⟨5, 1⟩) "t" 5] ∧
    (PgShardCopy (exampleWorld negativeIdRanges
        (allBut (Call.Prepare (some ⟨-3, 0⟩) "t" (-3)))
        [rowOf 1 "1,1", rowOf 31 "31,31"]) copyT).trace.filter Call.isCommitPrepared =
      [Call.CommitPrepared (some ⟨5, 0⟩) "t" 5, Call.CommitPrepared (some ⟨5, 1⟩) "t" 5] ∧
    (PgShardCopy (exampleWorld negativeIdRanges
        (allBut (Call.Prepare (some ⟨-3, 0⟩) "t" (-3)))
        [rowOf 1 "1,1", rowOf 31 "31,31"]) copyT).outcome = Outcome.returned true := by
  decide

/-- C10, amended: for a shard id that is not negative.  When the first
`Prepare` that is refused is on a connection of shard `S` and `0 ≤ S`, that
call is the last `Prepare` of the run (every `Prepare` before it succeeded,
none is issued after it) and the run ends by raising "COPY failed for shard
S". -/
theorem refused_prepare_is_last_and_reported (w : World) (copyStatement : CopyStmt)
    (conn : Option PGconn) (relationName : String) (S : Int)
    (hfirst : firstRefusedPrepare w (PgShardCopy w copyStatement).trace =
      some (Call.Prepare conn relationName S))
    (hS : 0 ≤ S) :
    (∃ pre, prepareCalls (PgShardCopy w copyStatement).trace =
        pre ++ [Call.Prepare conn relationName S] ∧ ∀ c ∈ pre, w.succeeds c = true) ∧
    w.succeeds (Call.Prepare conn relationName S) = false ∧
    (PgShardCopy w copyStatement).outcome =
      Outcome.raised (CopyError.copyFailedForShard S) := by
  have hfail : w.succeeds (Call.Prepare conn relationName S) = false := by
    have := List.find?_some hfirst
    simpa using this
  rcases PgShardCopy_cases w copyStatement with ⟨relation, _, heq⟩ | hnil | ⟨q, hq⟩
  · rw [heq] at hfirst ⊢
    rcases hrows : copyRows w relation copyStatement w.rows [] with ⟨tab, calls, err⟩
    have hcalls : prepareCalls calls = [] := by
      apply prepareCalls_eq_nil
      intro c hc
      have := copyRows_inRowLoop w relation copyStatement w.rows [] c (by rw [hrows]; exact hc)
      exact isPrepare_of_inRowLoop c this
    cases err with
    | some err =>
      rw [copyFrom_of_error w relation copyStatement tab calls err hrows] at hfirst
      have hrb : prepareCalls (rollbackTransactions w.get_rel_name (w.hash_seq tab)) = [] := by
        apply prepareCalls_eq_nil
        intro c hc
        exact isPrepare_of_inRecovery c (rollbackTransactions_inRecovery _ _ c hc)
      simp [firstRefusedPrepare, prepareCalls_append, hcalls, hrb] at hfirst
    | none =>
      rw [copyFrom_of_ok w relation copyStatement tab calls hrows] at hfirst ⊢
      have hcomp : prepareCalls (completeTwoPhaseCommit w.get_rel_name
          (prepareShards w w.get_rel_name (w.hash_seq tab) (-1)).1) = [] := by
        apply prepareCalls_eq_nil
        intro c hc
        exact isPrepare_of_inCompletion c (completeTwoPhaseCommit_inCompletion _ _ c hc)
      have hspec := prepareShards_spec w w.get_rel_name (w.hash_seq tab) (-1) (by decide)
      have hfirst' : firstRefusedPrepare w
          (prepareShards w w.get_rel_name (w.hash_seq tab) (-1)).2.2 =
          some (Call.Prepare conn relationName S) := by
        simpa [firstRefusedPrepare, prepareCalls_append, hcalls, hcomp] using hfirst
      obtain ⟨⟨pre, hpre, hok⟩, hfs⟩ := hspec.2 conn relationName S hfirst' hS
      refine ⟨⟨pre, ?_, hok⟩, hfail, ?_⟩
      · simp only [prepareCalls_append, hcalls, hcomp, List.nil_append, List.append_nil]
        exact hpre
      · simp only [hfs, ge_iff_le, hS, if_true]
  · rw [hnil] at hfirst
    simp [firstRefusedPrepare, prepareCalls] at hfirst
  · rw [hq] at hfirst
    simp [firstRefusedPrepare, prepareCalls, Call.isPrepare] at hfirst

/-- C10, amended, on the example: the second replica of shard 5 refuses
`Prepare`. -/
theorem refused_prepare_is_last_and_reported_witness :
    firstRefusedPrepare
        (exampleWorld fourRanges (allBut (Call.Prepare (some ⟨5, 1⟩) "t" 5)) fourRows)
        (PgShardCopy (exampleWorld fourRanges (allBut (Call.Prepare (some ⟨5, 1⟩) "t" 5))
          fourRows) copyT).trace = some (Call.Prepare (some ⟨5, 1⟩) "t" 5) ∧
    (0 : Int) ≤ 5 ∧
    ((∃ pre, prepareCalls (PgShardCopy (exampleWorld fourRanges
          (allBut (Call.Prepare (some ⟨5, 1⟩) "t" 5)) fourRows) copyT).trace =
        pre ++ [Call.Prepare (some ⟨5, 1⟩) "t" 5] ∧
        ∀ c ∈ pre, (exampleWorld fourRanges (allBut (Call.Prepare (some ⟨5, 1⟩) "t" 5))
          fourRows).succeeds c = true) ∧
    (exampleWorld fourRanges (allBut (Call.Prepare (some ⟨5, 1⟩) "t" 5))
      fourRows).succeeds (Call.Prepare (some ⟨5, 1⟩) "t" 5) = false ∧
    (PgShardCopy (exampleWorld fourRanges (allBut (Call.Prepare (some ⟨5, 1⟩) "t" 5))
      fourRows) copyT).outcome = Outcome.raised (CopyError.copyFailedForShard 5)) :=
  ⟨by decide, by decide,
    refused_prepare_is_last_and_reported
      (exampleWorld fourRanges (allBut (Call.Prepare (some ⟨5, 1⟩) "t" 5)) fourRows)
      copyT (some ⟨5, 1⟩) "t" 5 (by decide) (by decide)⟩

/-- C11: the options are not forwarded as the claim says.  For the table `t`,
shard 5, the columns `a`, `b` and the option `format csv`,
`ConstructCopyStatement` returns `COPY t_5 (a,b)FROM STDIN WITH 40format csv)`:
the separator of the option list is printed as a number, 40 for the opening
parenthesis and 44 for the comma.  The text of the claim for this request is
`COPY t_5 (a,b)FROM STDIN WITH (format csv)`. -/
theorem copy_statement_options_separator_printed_as_number :
    ConstructCopyStatement (exampleWorld fourRanges allSucceed []) ⟨none, "t"⟩
        copyTWithOptions 5 = "COPY t_5 (a,b)FROM STDIN WITH 40format csv)" ∧
    describedCopyStatement (exampleWorld fourRanges allSucceed []) ⟨none, "t"⟩
        copyTWithOptions 5 = "COPY t_5 (a,b)FROM STDIN WITH (format csv)" ∧
    ConstructCopyStatement (exampleWorld fourRanges allSucceed []) ⟨none, "t"⟩
        copyTWithOptions 5 ≠ "COPY t_5 (a,b)FROM STDIN WITH (format csv)" ∧
    ConstructCopyStatement (exampleWorld fourRanges allSucceed []) ⟨none, "t"⟩
        { copyTWithOptions with options := [⟨"format", "csv"⟩, ⟨"header", "true"⟩] } 5 =
      "COPY t_5 (a,b)FROM STDIN WITH 40format csv44header true)" := by
  decide

end PgShard
